import Mathlib

/-!
# Verification development for the auto-palette color-extraction library

This file is a shallow embedding, in Lean 4, of the core of the
`auto-palette-rs` Rust library: the sRGB / CIE XYZ / CIE L*a*b* color
conversions (`src/color/rgba.rs`, `src/color/xyz.rs`, `src/color/lab.rs`,
`src/color/white_point.rs`), the k-d tree nearest-neighbor index
(`src/math/neighbors/kdtree/mod.rs`), the linear-scan search
(`src/math/neighbors/linear.rs`), the DBSCAN clustering driver
(`src/math/clustering/dbscan/algorithm.rs`) and the extraction driver
(`src/image.rs`, `src/swatch.rs`), together with theorems about them.

Modelling conventions, used throughout:

* The Rust code is generic over a floating-point scalar `F: Float`
  (instantiated with `f32`/`f64`).  The embedding idealizes `F` as the
  exact rationals `ℚ`: a decimal literal such as `F::from_f64(0.412391)`
  is embedded as the rational `412391/1000000`.  The two transcendental
  trait methods that `ℚ` cannot provide, `cbrt` and `powf`, are passed in
  as an explicit parameter (`FloatOps`), exactly mirroring the fact that
  they are abstract trait methods in the source.
* `EuclideanDistance::measure` returns `√s` where `s` is the squared
  euclidean distance.  The value `√s` is irrational, so the embedding
  represents it by its square `s` and embeds every comparison the code
  performs on it accordingly: `√s ≤ radius` (with `radius ≥ 0`, which the
  code's `radius < 0` early return guarantees) becomes `s ≤ radius²`,
  and the ordering of the result heap by `√s` becomes the (identical)
  ordering by `s`.  `SquaredEuclideanDistance` needs no such treatment.
* Rust's `BinaryHeap<Element<F>>` with `Element`'s reversed `Ord` pops
  elements in ascending order of `distance`; the order among elements
  with equal distances is unspecified.  The embedding models the heap as
  a list kept sorted by ascending distance, inserting new elements after
  existing equal ones.  This is one deterministic refinement of the
  unspecified tie order; every concrete run below is arranged so that
  the stated facts do not depend on the tie order.
* Rust's `sort_unstable_by` (used on index arrays in the k-d tree build
  and in the linear search) is modelled by the stable `List.mergeSort`;
  again a deterministic refinement of an unspecified tie order.
* `HashMap<usize, _>::values()` iterates entries in an unspecified
  order.  `DBSCAN::centroids` therefore returns the centroids in an
  arbitrary order.  The embedding canonicalizes the key set
  (`clusterKeys`) and takes the actual iteration order as an explicit
  parameter `perm` (a permutation of the keys); every concrete
  instantiation of `perm` below is a possible behavior of the program.
* Panics (`expect` on a failed cast, out-of-bounds slice indexing,
  integer division by zero, `unreachable!`) are modelled by `Option`,
  with `none` meaning the program panics.
* `u8` values are modelled as `ℕ` (values 0..255), `u32`/`u64`/`usize`
  as `ℕ`; none of the integer arithmetic performed by the embedded code
  can overflow the source's integer widths for the inputs considered.
-/

set_option maxRecDepth 100000

/-! ## Numeric helpers: rounding and checked casts

`f64::round` rounds half away from zero.  `num_traits::ToPrimitive::to_u8`
/ `to_u32` on a float value truncate toward zero and return `None` when
the truncated value does not fit the target type.  `to_u8` is only ever
applied to the integral result of `round`, so it succeeds exactly when
that integer lies in `[0, 255]`.  `to_u32` is applied to the non-negative
products `centroid * width` (ℚ-valued); on non-negative arguments it
returns the floor when it is below `2^32`.
-/

/-- Rust `f64::round`: round half away from zero (result is integral). -/
def rustRound (q : ℚ) : ℤ :=
  if 0 ≤ q then (q + 1/2).floor else -((-q + 1/2).floor)

/-- `num_traits` `to_u8` applied to an integral float value. -/
def toU8 (n : ℤ) : Option ℕ :=
  if 0 ≤ n ∧ n ≤ 255 then some n.toNat else none

/-- `num_traits` `to_u32` applied to a float value (truncation toward
zero; the embedded code only ever applies it to non-negative values). -/
def toU32 (q : ℚ) : Option ℕ :=
  if 0 ≤ q ∧ q < 4294967296 then some q.floor.toNat else none

/-- The `Clamp` impl from `src/math/number.rs`:
`if self < min { min } else if self > max { max } else { self }`. -/
def clampQ (v lo hi : ℚ) : ℚ :=
  if v < lo then lo else if v > hi then hi else v

/-- `f64::abs` (definitions below avoid Mathlib's lattice `|·|` so that
they reduce in the kernel). -/
def qAbs (q : ℚ) : ℚ := if q < 0 then -q else q

/-- The abstract `cbrt` and `powf` methods of the `Float` trait (the
source is generic over `F: Float`; `ℚ` has no cube roots or real powers,
so the embedding keeps them abstract). -/
structure FloatOps where
  cbrt : ℚ → ℚ
  powf : ℚ → ℚ → ℚ

/-! ## Color model

Embeds `src/color/white_point.rs`, `src/color/xyz.rs`,
`src/color/lab.rs` and `src/color/rgba.rs`.  Colors are records of
rationals; `Rgba` channels are naturals in `[0, 255]`.
-/

/-- The D65 white point of `src/color/white_point.rs`:
`x() = from_f64(0.95046)`, `y() = from_f64(1.0)`, `z() = from_f64(1.08906)`. -/
def D65x : ℚ := 95046/100000

/-- See `D65x`. -/
def D65y : ℚ := 1

/-- See `D65x`. -/
def D65z : ℚ := 108906/100000

/-- `XYZ::max_x` from `src/color/xyz.rs` (`from_f64(0.950456)`). -/
def xyzMaxX : ℚ := 950456/1000000

/-- `XYZ::max_y` from `src/color/xyz.rs`. -/
def xyzMaxY : ℚ := 1

/-- `XYZ::max_z` from `src/color/xyz.rs` (`from_f64(1.088644)`). -/
def xyzMaxZ : ℚ := 1088644/1000000

structure XYZc where
  x : ℚ
  y : ℚ
  z : ℚ
deriving DecidableEq, Repr

/-- `XYZ::new`: clamps each channel into the D65 box `[0, max_*]`. -/
def XYZc.new (x y z : ℚ) : XYZc :=
  ⟨clampQ x 0 xyzMaxX, clampQ y 0 xyzMaxY, clampQ z 0 xyzMaxZ⟩

structure Labc where
  l : ℚ
  a : ℚ
  b : ℚ
deriving DecidableEq, Repr

/-- `Lab::new`: clamps `l` into `[0, 100]` and `a`, `b` into `[-128, 127]`. -/
def Labc.new (l a b : ℚ) : Labc :=
  ⟨clampQ l 0 100, clampQ a (-128) 127, clampQ b (-128) 127⟩

structure Rgbac where
  r : ℕ
  g : ℕ
  b : ℕ
  a : ℕ
deriving DecidableEq, Repr

/-- `impl From<&Rgba> for XYZ` (`src/color/xyz.rs`): linearize each
channel (`v ≤ 0.04045 ? v/12.92 : ((v+0.055)/1.055)^2.4`, the power via
the abstract `powf`), apply the forward matrix, clamp into the box. -/
def XYZc.fromRgba (ops : FloatOps) (c : Rgbac) : XYZc :=
  let f : ℚ → ℚ := fun v =>
    if v ≤ 4045/100000 then v / (1292/100)
    else ops.powf ((v + 55/1000) / (1055/1000)) (12/5)
  let r := f ((c.r : ℚ) / 255)
  let g := f ((c.g : ℚ) / 255)
  let b := f ((c.b : ℚ) / 255)
  XYZc.new
    (412391/1000000 * r + 357584/1000000 * g + 180481/1000000 * b)
    (212639/1000000 * r + 715169/1000000 * g + 72192/1000000 * b)
    (19331/1000000 * r + 119195/1000000 * g + 950532/1000000 * b)

/-- `impl From<&XYZ> for Lab` (`src/color/lab.rs`):
`f(t) = t > (6/29)³ ? cbrt(t) : (841/108)·t + 4/29` (the threshold
`from_f64(6.0/29.0).powi(3)` is the literal `216/24389`) applied to the
channels divided by the white point, then the L*a*b* combination,
clamped by `Lab::new`. -/
def Labc.fromXYZ (ops : FloatOps) (c : XYZc) : Labc :=
  let f : ℚ → ℚ := fun t =>
    if t > 216/24389 then ops.cbrt t else 841/108 * t + 4/29
  let fx := f (c.x / D65x)
  let fy := f (c.y / D65y)
  let fz := f (c.z / D65z)
  Labc.new (116 * fy - 16) (500 * (fx - fy)) (200 * (fy - fz))

/-- `impl From<&Lab> for XYZ` (`src/color/xyz.rs`):
`g(t) = t > 6/29 ? t³ : (108/841)·(t − 4/29)`, applied to
`(ℓ+a₂, ℓ, ℓ−b₂)` and scaled by the white point, clamped by `XYZ::new`. -/
def XYZc.fromLab (c : Labc) : XYZc :=
  let g : ℚ → ℚ := fun t =>
    if t > 6/29 then t * t * t else 108/841 * (t - 4/29)
  let l2 := (c.l + 16) / 116
  let a2 := c.a / 500
  let b2 := c.b / 200
  XYZc.new (D65x * g (l2 + a2)) (D65y * g l2) (D65z * g (l2 - b2))

/-- The per-channel gamma encoding of `impl From<&XYZ> for Rgba`
(`src/color/rgba.rs`): `v ≤ 0.0031308 ? 12.92·v : 1.055·v^(1/2.4) − 0.055`. -/
def rgbaGamma (ops : FloatOps) (v : ℚ) : ℚ :=
  if v ≤ 31308/10000000 then 1292/100 * v
  else 1055/1000 * ops.powf v (5/12) - 55/1000

/-- The linear red channel `3.24097·x − 1.537383·y − 0.498611·z` fed to
the gamma encoding in `impl From<&XYZ> for Rgba`. -/
def rgbaLinR (c : XYZc) : ℚ :=
  324097/100000 * c.x - 1537383/1000000 * c.y - 498611/1000000 * c.z

/-- The linear green channel of `impl From<&XYZ> for Rgba`. -/
def rgbaLinG (c : XYZc) : ℚ :=
  -(969244/1000000) * c.x + 1875968/1000000 * c.y + 41555/1000000 * c.z

/-- The linear blue channel of `impl From<&XYZ> for Rgba`. -/
def rgbaLinB (c : XYZc) : ℚ :=
  5563/100000 * c.x - 203977/1000000 * c.y + 1056972/1000000 * c.z

/-- `impl From<&XYZ> for Rgba` (`src/color/rgba.rs`): apply the inverse
matrix, the gamma encoding, scale by 255, round, and cast with
`Rgba::normalize_value`, i.e. `value.to_u8().expect(..)` — the cast has
NO clamp and panics (here: `none`) when the rounded value is outside
`[0, 255]`.  Alpha is set to 255. -/
def Rgbac.fromXYZ (ops : FloatOps) (c : XYZc) : Option Rgbac := do
  let fr := rgbaGamma ops (rgbaLinR c)
  let fg := rgbaGamma ops (rgbaLinG c)
  let fb := rgbaGamma ops (rgbaLinB c)
  let r ← toU8 (rustRound (fr * 255))
  let g ← toU8 (rustRound (fg * 255))
  let b ← toU8 (rustRound (fb * 255))
  some ⟨r, g, b, 255⟩

/-! ## Points, distance measures

Points (`Point2`, `Point5`, ... of `src/math/point.rs`) are embedded as
lists of rationals; `dim` is the length, axis indexing is `getD` (the
source panics on an out-of-range axis; all uses are in range).
`SquaredEuclideanDistance::measure` is the fold of squared differences.
-/

/-- `SquaredEuclideanDistance::measure` (`src/math/distance/euclidean.rs`):
subtract pointwise, then fold summing `delta.powi(2)`. -/
def sqEuclid (a b : List ℚ) : ℚ :=
  ((List.zipWith (fun x y => x - y) a b).map (fun d => d * d)).foldl (· + ·) 0

/-- Coordinate `axis` of point `i` of the dataset (`dataset[i][axis]`). -/
def coordAt (dataset : List (List ℚ)) (i axis : ℕ) : ℚ :=
  (dataset.getD i []).getD axis 0

/-- A `Neighbor` (`src/math/neighbors/nns.rs`): dataset index plus the
distance from the query.  For the euclidean measure the embedded
`distance` field holds the squared value (see the header). -/
structure NeighborQ where
  index : ℕ
  distance : ℚ
deriving DecidableEq, Repr

/-- An `Element` of the k-d tree search heaps
(`src/math/neighbors/kdtree/element.rs`). -/
structure ElementQ where
  index : ℕ
  distance : ℚ
deriving DecidableEq, Repr

/-- The `BinaryHeap<Element<F>>` of the k-d tree searches, modelled as a
list sorted by ascending `distance` (`Element`'s reversed `Ord` makes
Rust's max-heap pop smallest-distance first).  `push` inserts after
existing equal distances — one refinement of the heap's unspecified tie
order. -/
def heapPush (h : List ElementQ) (e : ElementQ) : List ElementQ :=
  match h with
  | [] => [e]
  | x :: xs => if e.distance < x.distance then e :: x :: xs else x :: heapPush xs e

/-- A node of the k-d tree (`src/math/neighbors/kdtree/node.rs`);
`nil` embeds an absent `Option<Box<Node>>` child. -/
inductive KdTree where
  | nil
  | node (index : ℕ) (axis : ℕ) (left right : KdTree)
deriving DecidableEq, Repr

/-- `Node::is_leaf`: both children absent. -/
def KdTree.isLeafNode : KdTree → KdTree → Bool
  | .nil, .nil => true
  | _, _ => false

/-- `KDTree::build_node` (`src/math/neighbors/kdtree/mod.rs`): at depth
`d`, sort the index slice by coordinate `d % dim`, pick the median
(`len / 2`) as the node, recurse on the two halves.  (The source's
`sort_unstable_by` is modelled by the stable `mergeSort`; the comparator
`lhs.partial_cmp(rhs).unwrap_or(Greater)` is total ascending `≤` on
rationals.) -/
def buildNode (dataset : List (List ℚ)) (indices : List ℕ) (depth : ℕ) : KdTree :=
  if dataset.isEmpty ∨ indices.isEmpty then .nil
  else
    let axis := depth % (dataset.headD []).length
    let sorted := indices.mergeSort (fun i j => coordAt dataset i axis ≤ coordAt dataset j axis)
    let median := sorted.length / 2
    .node (sorted.getD median 0) axis
      (buildNode dataset (sorted.take median) (depth + 1))
      (buildNode dataset (sorted.drop (median + 1)) (depth + 1))
termination_by indices.length
decreasing_by
  all_goals
    rename_i h
    rw [not_or] at h
    have h2 : indices ≠ [] := by simpa [List.isEmpty_iff] using h.2
    have h3 : 0 < indices.length := List.length_pos.mpr h2
    simp only [List.length_take, List.length_drop, List.length_mergeSort]
    omega

/-- `KDTree::search_recursively`: push every visited node into the heap;
at a non-leaf compute `delta = query[axis] − point[axis]` and compare
`|delta|` with `heap.peek()` — the SMALLEST distance seen so far (the
heap is min-first); recurse into both children when `heap.len() < k` or
`|delta| ≤` that distance, otherwise into the side of `sign(delta)`.
`measure` is the distance-measure parameter. -/
def searchRec (dataset : List (List ℚ)) (measure : List ℚ → List ℚ → ℚ)
    (query : List ℚ) (k : ℕ) : KdTree → List ElementQ → List ElementQ
  | .nil, heap => heap
  | .node idx axis l r, heap =>
    let point := dataset.getD idx []
    let heap1 := heapPush heap ⟨idx, measure point query⟩
    if KdTree.isLeafNode l r then heap1
    else
      let delta := query.getD axis 0 - point.getD axis 0
      -- `heap.peek().map(..).unwrap_or(F::min_value())`: `heap1` is never
      -- empty (we just pushed), so the default is irrelevant; we use `0`.
      let dist := ((heap1.head?).map (·.distance)).getD 0
      if heap1.length < k ∨ qAbs delta ≤ dist then
        searchRec dataset measure query k r (searchRec dataset measure query k l heap1)
      else if delta < 0 then
        searchRec dataset measure query k l heap1
      else
        searchRec dataset measure query k r heap1

/-- `KDTree::search` (`NeighborSearch` impl): build the heap over the
whole tree, then pop up to `k` elements (ascending distance). -/
def kdSearch (dataset : List (List ℚ)) (measure : List ℚ → List ℚ → ℚ)
    (query : List ℚ) (k : ℕ) : List NeighborQ :=
  if k < 1 then []
  else
    let tree := buildNode dataset (List.range dataset.length) 0
    let heap := searchRec dataset measure query k tree []
    (heap.take k).map (fun e => ⟨e.index, e.distance⟩)

/-- `KDTree::search_radius_recursively`: emit the node when its distance
passes the radius test, then recurse into both children when
`|delta| ≤ radius`, else into the side of `sign(delta)`.  `rTest d`
embeds the source's `distance <= radius` comparison (for the euclidean
measure: `d ≤ radius²`, see the header). -/
def searchRadiusRec (dataset : List (List ℚ)) (measure : List ℚ → List ℚ → ℚ)
    (rTest : ℚ → Bool) (radius : ℚ) (query : List ℚ) :
    KdTree → List ElementQ → List ElementQ
  | .nil, results => results
  | .node idx axis l r, results =>
    let point := dataset.getD idx []
    let d := measure point query
    let results1 := if rTest d then heapPush results ⟨idx, d⟩ else results
    let delta := query.getD axis 0 - point.getD axis 0
    if qAbs delta ≤ radius then
      searchRadiusRec dataset measure rTest radius query r
        (searchRadiusRec dataset measure rTest radius query l results1)
    else if delta < 0 then
      searchRadiusRec dataset measure rTest radius query l results1
    else
      searchRadiusRec dataset measure rTest radius query r results1

/-- `KDTree::search_radius`: empty for a negative radius, otherwise pop
all collected elements (ascending distance). -/
def kdSearchRadius (dataset : List (List ℚ)) (measure : List ℚ → List ℚ → ℚ)
    (rTest : ℚ → Bool) (radius : ℚ) (query : List ℚ) : List NeighborQ :=
  if radius < 0 then []
  else
    let tree := buildNode dataset (List.range dataset.length) 0
    (searchRadiusRec dataset measure rTest radius query tree []).map
      (fun e => ⟨e.index, e.distance⟩)

/-- `LinearSearch::search` (`src/math/neighbors/linear.rs`): compute all
distances, sort ascending (`sort_unstable_by` on `partial_cmp`,
modelled by stable `mergeSort`), take the first `k`. -/
def linearSearch (dataset : List (List ℚ)) (measure : List ℚ → List ℚ → ℚ)
    (query : List ℚ) (k : ℕ) : List NeighborQ :=
  if k = 0 then []
  else
    let neighbors := (List.range dataset.length).map
      (fun i => (⟨i, measure (dataset.getD i []) query⟩ : NeighborQ))
    (neighbors.mergeSort (fun a b => a.distance ≤ b.distance)).take k


/-! ## DBSCAN

Embeds `src/math/clustering/dbscan/label.rs` and
`src/math/clustering/dbscan/algorithm.rs`.  The label array is a
`List Label`; reads of `labels[i]` are embedded as `getD` with default
`Undefined` when the index is separately shown (or checked) to be in
range, and as `none` (panic) where the Rust indexing could be reached
with an out-of-range index.  The search used by the driver is the k-d
tree radius search above, with the distance measure passed as the
`(measure, rTest)` pair described in the header.
-/

inductive Label where
  | Assigned (c : ℕ)
  | Outlier
  | Marked
  | Undefined
deriving DecidableEq, Repr

/-- `Label::is_assigned`. -/
def Label.isAssigned : Label → Bool
  | .Assigned _ => true
  | _ => false

/-- `Label::is_outlier`. -/
def Label.isOutlier : Label → Bool
  | .Outlier => true
  | _ => false

/-- `Label::is_undefined`. -/
def Label.isUndefined : Label → Bool
  | .Undefined => true
  | _ => false

theorem Label.isAssigned_false_of_isOutlier {l : Label}
    (h : l.isOutlier = true) : l.isAssigned = false := by
  cases l <;> simp_all [Label.isOutlier, Label.isAssigned]

/-- One pass of the `for secondary_neighbor in secondary_neighbors`
loop of `DBSCAN::expand_cluster`: an `Undefined` secondary neighbor is
marked and enqueued, an `Outlier` one is enqueued, anything else is
left alone. -/
def enqueueSecondary (st : List Label × List ℕ) (idx : ℕ) : List Label × List ℕ :=
  match st.1.getD idx .Undefined with
  | .Undefined => (st.1.set idx .Marked, st.2 ++ [idx])
  | .Outlier => (st.1, st.2 ++ [idx])
  | _ => st

/-- The number of not-yet-assigned labels; the left component of the
termination measure of `expandCluster`. -/
def unassignedCount (labels : List Label) : ℕ :=
  labels.countP (fun l => !l.isAssigned)

theorem unassignedCount_set_lt (labels : List Label) (j : ℕ)
    (hj : j < labels.length) (h : (labels[j]).isAssigned = false) (cid : ℕ) :
    unassignedCount (labels.set j (.Assigned cid)) < unassignedCount labels := by
  unfold unassignedCount
  rw [List.countP_set _ _ _ _ hj]
  have hpos : 0 < List.countP (fun l => !l.isAssigned) labels := by
    rw [List.countP_pos_iff]
    exact ⟨labels[j], List.getElem_mem hj, by simp [h]⟩
  have e1 : (!(labels[j]).isAssigned) = true := by simp [h]
  have e2 : ¬((!(Label.Assigned cid).isAssigned) = true) := by
    simp [Label.isAssigned]
  rw [if_pos e1, if_neg e2]
  omega

theorem unassignedCount_enqueueSecondary (st : List Label × List ℕ) (idx : ℕ) :
    unassignedCount (enqueueSecondary st idx).1 = unassignedCount st.1 := by
  unfold enqueueSecondary
  split
  · rename_i heq
    by_cases hidx : idx < st.1.length
    · rw [List.getD_eq_getElem _ _ hidx] at heq
      simp only [unassignedCount]
      rw [List.countP_set _ _ _ _ hidx]
      have hpos : 0 < List.countP (fun l => !l.isAssigned) st.1 := by
        rw [List.countP_pos_iff]
        exact ⟨st.1[idx], List.getElem_mem hidx, by simp [heq, Label.isAssigned]⟩
      have e1 : (!(st.1[idx]).isAssigned) = true := by simp [heq, Label.isAssigned]
      have e2 : (!(Label.Marked).isAssigned) = true := by simp [Label.isAssigned]
      rw [if_pos e1, if_pos e2]
      omega
    · simp [List.set_eq_of_length_le (le_of_not_lt hidx)]
  · rfl
  · rfl

theorem unassignedCount_foldl_enqueue (xs : List ℕ) (st : List Label × List ℕ) :
    unassignedCount (xs.foldl enqueueSecondary st).1 = unassignedCount st.1 := by
  induction xs generalizing st with
  | nil => rfl
  | cons x xs ih =>
    rw [List.foldl_cons, ih, unassignedCount_enqueueSecondary]

/-- `DBSCAN::expand_cluster` (`src/math/clustering/dbscan/algorithm.rs`):
breadth-first over a FIFO queue.  A popped index that is already
`Assigned` is skipped; an `Outlier` is upgraded to `Assigned(cid)`
without further expansion; otherwise it is assigned and, when its own
radius neighborhood (`ns.search_radius`, the k-d tree search) reaches
`min_points`, its secondary neighbors are enqueued via
`enqueueSecondary`.  A popped index out of range of the label array is
a Rust indexing panic, embedded as `none`.  Terminates because each
iteration either assigns a not-yet-assigned point or pops without
pushing. -/
def expandCluster (cid : ℕ) (dataset : List (List ℚ))
    (minPoints : ℕ) (epsilon : ℚ) (measure : List ℚ → List ℚ → ℚ)
    (rTest : ℚ → Bool) (tree : KdTree) :
    List ℕ → List Label → Option (List Label)
  | [], labels => some labels
  | j :: rest, labels =>
    if hj : labels.length ≤ j then none
    else if ha : (labels.getD j .Undefined).isAssigned then
      expandCluster cid dataset minPoints epsilon measure rTest tree rest labels
    else if ho : (labels.getD j .Undefined).isOutlier then
      expandCluster cid dataset minPoints epsilon measure rTest tree rest
        (labels.set j (.Assigned cid))
    else
      let labels1 := labels.set j (.Assigned cid)
      let point := dataset.getD j []
      let secondary := if epsilon < 0 then []
        else (searchRadiusRec dataset measure rTest epsilon point tree []).map
          (fun e => (⟨e.index, e.distance⟩ : NeighborQ))
      if secondary.length < minPoints then
        expandCluster cid dataset minPoints epsilon measure rTest tree rest labels1
      else
        let st := (secondary.map (·.index)).foldl enqueueSecondary (labels1, rest)
        expandCluster cid dataset minPoints epsilon measure rTest tree st.2 st.1
termination_by queue labels => (unassignedCount labels, queue.length)
decreasing_by
  · apply Prod.Lex.right
    simp
  · apply Prod.Lex.left
    have hlt : j < labels.length := lt_of_not_le hj
    rw [List.getD_eq_getElem _ _ hlt] at ho
    exact unassignedCount_set_lt _ _ hlt (Label.isAssigned_false_of_isOutlier ho) _
  · apply Prod.Lex.left
    have hlt : j < labels.length := lt_of_not_le hj
    rw [List.getD_eq_getElem _ _ hlt] at ha
    simp only [Bool.not_eq_true] at ha
    exact unassignedCount_set_lt _ _ hlt ha _
  · apply Prod.Lex.left
    rw [unassignedCount_foldl_enqueue]
    have hlt : j < labels.length := lt_of_not_le hj
    rw [List.getD_eq_getElem _ _ hlt] at ha
    simp only [Bool.not_eq_true] at ha
    exact unassignedCount_set_lt _ _ hlt ha _

/-- The body of the `for (index, point) in dataset.iter().enumerate()`
loop of `DBSCAN::fit`: skip a non-`Undefined` index; label an index
with fewer than `min_points` radius neighbors `Outlier`; otherwise mark
every neighbor, expand a fresh cluster from them, and increment the
cluster id. -/
def fitLoop (dataset : List (List ℚ)) (minPoints : ℕ) (epsilon : ℚ)
    (measure : List ℚ → List ℚ → ℚ) (rTest : ℚ → Bool) (tree : KdTree) :
    List ℕ → List Label → ℕ → Option (List Label)
  | [], labels, _ => some labels
  | i :: rest, labels, cid =>
    if ¬ (labels.getD i .Undefined).isUndefined then
      fitLoop dataset minPoints epsilon measure rTest tree rest labels cid
    else
      let neighbors := if epsilon < 0 then []
        else (searchRadiusRec dataset measure rTest epsilon (dataset.getD i []) tree []).map
          (fun e => (⟨e.index, e.distance⟩ : NeighborQ))
      if neighbors.length < minPoints then
        fitLoop dataset minPoints epsilon measure rTest tree rest (labels.set i .Outlier) cid
      else
        let labels1 := neighbors.foldl (fun ls nb => ls.set nb.index .Marked) labels
        match expandCluster cid dataset minPoints epsilon measure rTest tree
          (neighbors.map (·.index)) labels1 with
        | none => none
        | some labels2 =>
          fitLoop dataset minPoints epsilon measure rTest tree rest labels2 (cid + 1)

/-- The label array computed by `DBSCAN::fit`
(`src/math/clustering/dbscan/algorithm.rs`): `none` when the dataset is
empty (the source returns an empty result without a label array — the
caller-facing maps are all empty; see `clusterKeys` etc., which treat
that case separately), otherwise the final `labels` vector after the
main loop.  The k-d tree is built over all dataset indices. -/
def fitLabels (dataset : List (List ℚ)) (minPoints : ℕ) (epsilon : ℚ)
    (measure : List ℚ → List ℚ → ℚ) (rTest : ℚ → Bool) : Option (List Label) :=
  if dataset.isEmpty then some []
  else
    let tree := buildNode dataset (List.range dataset.length) 0
    fitLoop dataset minPoints epsilon measure rTest tree
      (List.range dataset.length) (List.replicate dataset.length .Undefined) 0

/-! ### The collection phase of `DBSCAN::fit`

The source folds the final label array into three `HashMap`/`Vec`
structures: `membership[c]` collects (in ascending index order, since
the fold is in index order) the indices labelled `Assigned(c)`;
`centroids[c]` sums their points and is then divided by
`membership[c].len()`; `outliers` collects the `Outlier` indices.  The
embedding gives these extensionally, as functions of the label array;
the key set is canonicalized (`HashMap` iteration order is abstracted
by the `perm` parameter of the extraction driver below). -/

/-- The cluster ids that occur in the final label array (the key set of
the `centroids` / `membership` maps), in first-occurrence order. -/
def clusterKeys (labels : List Label) : List ℕ :=
  (labels.filterMap (fun l => match l with
    | .Assigned c => some c
    | _ => none)).dedup

/-- `membership[c]`: the member indices of cluster `c`, ascending. -/
def membershipAt (labels : List Label) (c : ℕ) : List ℕ :=
  (List.range labels.length).filter (fun i => labels.getD i .Undefined = .Assigned c)

/-- `DBSCAN::count_at`: the size of cluster `c` (0 for an absent key). -/
def countAt (labels : List Label) (c : ℕ) : ℕ :=
  (membershipAt labels c).length

/-- `DBSCAN::outliers`: the indices labelled `Outlier`, ascending. -/
def outliersOf (labels : List Label) : List ℕ :=
  (List.range labels.length).filter (fun i => labels.getD i .Undefined = .Outlier)

/-- Pointwise sum of two points (`Point::add_assign`). -/
def ptAdd (a b : List ℚ) : List ℚ := List.zipWith (· + ·) a b

/-- Pointwise division of a point by a scalar (`Point::div_assign`;
the divisor `membership[c].len()` is nonzero whenever `c` is a key). -/
def ptDiv (a : List ℚ) (q : ℚ) : List ℚ := a.map (· / q)

/-- `centroids[c]`: the mean of the member points of cluster `c`
(sum via `add_assign` starting from `P::zero()`, then `div_assign` by
the member count). -/
def centroidAt (dataset : List (List ℚ)) (labels : List Label) (c : ℕ) : List ℚ :=
  let ms := membershipAt labels c
  let dim := (dataset.headD []).length
  ptDiv (ms.foldl (fun acc i => ptAdd acc (dataset.getD i [])) (List.replicate dim 0))
    ((countAt labels c : ℕ) : ℚ)

/-! ## The extraction driver

Embeds `ImageData::extract` (`src/image.rs`) and the `Swatch` record
with its `Ord` (`src/swatch.rs`).  `bytes` is the RGBA byte buffer
(naturals in `[0, 255]`), `w`/`h` the image dimensions.  The hardcoded
parameters are `min_points = 25`, `epsilon = from_f64(0.025) = 1/40`,
`EuclideanDistance` (embedded as squared values with the radius test
`d ≤ ε²`; see the header).  `perm` is the `HashMap::values()` iteration
order of the centroid map: a permutation of `clusterKeys`.  The i-th
enumerated centroid is paired with `count_at(i)` — with the enumeration
POSITION, exactly as the source does. -/

/-- `delta_l = Lab::max_l() - Lab::min_l() = 100`. -/
def deltaL : ℚ := 100

/-- `delta_a = Lab::max_a() - Lab::min_a() = 127 - (-128) = 255`. -/
def deltaA : ℚ := 255

/-- `delta_b = Lab::max_b() - Lab::min_b() = 255`. -/
def deltaB : ℚ := 255

/-- The per-pixel feature construction of `ImageData::extract`: walk the
byte buffer four bytes at a time (a trailing chunk of fewer than four
bytes makes the source index out of bounds: `none`); convert
RGBA → XYZ → L*a*b*; position `(x, y) = (p % w, (p / w) % h)` from the
pixel counter `p` (u64 arithmetic; `% 0` and `/ 0` panic: `none`);
produce `[l/Δl, a/Δa, b/Δb, x/w, y/h]`. -/
def buildPixels (ops : FloatOps) (w h : ℕ) : List ℕ → ℕ → Option (List (List ℚ))
  | [], _ => some []
  | r :: g :: b :: a :: rest, p => do
    let lab := Labc.fromXYZ ops (XYZc.fromRgba ops ⟨r, g, b, a⟩)
    if w = 0 then none
    else if h = 0 then none
    else
      let x : ℚ := ((p % w : ℕ) : ℚ)
      let y : ℚ := (((p / w) % h : ℕ) : ℚ)
      let pt := [lab.l / deltaL, lab.a / deltaA, lab.b / deltaB, x / (w : ℚ), y / (h : ℚ)]
      (buildPixels ops w h rest (p + 1)).map (pt :: ·)
  | _, _ => none

structure SwatchQ where
  color : ℕ × ℕ × ℕ
  position : ℕ × ℕ
  percentage : ℚ
deriving DecidableEq, Repr

/-- One step of the swatch-construction phase of `ImageData::extract`:
the centroid at enumeration position `e` of `dbscan.centroids()` (key
`perm[e]` under iteration order `perm`) is denormalized to L*a*b*,
converted to RGB (`Rgba::from`, may panic: `none`), its position
denormalized with `to_u32().expect(..)` (may panic), and paired with
`count_at(e) / pixels.len()` — `count_at` of the enumeration POSITION,
exactly as the source's `enumerate()` does. -/
def swatchAt (ops : FloatOps) (pixels : List (List ℚ)) (labels : List Label)
    (w h : ℕ) (perm : List ℕ) (e : ℕ) : Option SwatchQ := do
  let centroid := centroidAt pixels labels (perm.getD e 0)
  let lab := Labc.new (centroid.getD 0 0 * deltaL) (centroid.getD 1 0 * deltaA)
    (centroid.getD 2 0 * deltaB)
  let rgb ← Rgbac.fromXYZ ops (XYZc.fromLab lab)
  let x ← toU32 (centroid.getD 3 0 * (w : ℚ))
  let y ← toU32 (centroid.getD 4 0 * (h : ℚ))
  let count := countAt labels e
  some (⟨(rgb.r, rgb.g, rgb.b), (x, y), (count : ℚ) / (pixels.length : ℚ)⟩ : SwatchQ)

/-- The `map` of the swatch-construction loop over the enumeration
positions `es` (one `swatchAt` per centroid). -/
def swatchList (ops : FloatOps) (pixels : List (List ℚ)) (labels : List Label)
    (w h : ℕ) (perm : List ℕ) : List ℕ → Option (List SwatchQ)
  | [] => some []
  | e :: rest => do
    let s ← swatchAt ops pixels labels w h perm e
    let tail ← swatchList ops pixels labels w h perm rest
    some (s :: tail)

/-- The swatch-construction and sort phase of `ImageData::extract`:
build one swatch per centroid, then `sort()` — the stable sort under
`Swatch`'s `Ord`, which compares `percentage` ascending. -/
def swatchesOf (ops : FloatOps) (pixels : List (List ℚ)) (labels : List Label)
    (w h : ℕ) (perm : List ℕ) : Option (List SwatchQ) := do
  let swatches ← swatchList ops pixels labels w h perm (List.range perm.length)
  some (swatches.mergeSort (fun s t => s.percentage ≤ t.percentage))

/-- `ImageData::extract` (`src/image.rs`): build the 5-D feature points,
run DBSCAN with `Params::new(25, 0.025, EuclideanDistance)`, then build
and sort the swatches.  `ops` are the abstract `Float` trait methods and
`perm` the `HashMap` iteration order (see the header). -/
def extractModel (bytes : List ℕ) (w h : ℕ) (ops : FloatOps) (perm : List ℕ) :
    Option (List SwatchQ) := do
  let pixels ← buildPixels ops w h bytes 0
  let labels ← fitLabels pixels 25 (1/40) sqEuclid (fun d => d ≤ 1/1600)
  swatchesOf ops pixels labels w h perm

/-! ## Structural equality helpers

The `DecidableEq` instance that `deriving` produces for `Rat`-carrying
structures makes the kernel normalize whole `Rat` values (including the
embedded coprimality proofs), which overflows the interpreter stack for
large denominators.  The Bool-valued comparators below compare the
`num`/`den` projections instead; their soundness lemmas recover the
propositional equalities. -/

/-- Projection-based equality test on `ℚ`. -/
def qBeq (a b : ℚ) : Bool := a.num == b.num && a.den == b.den

theorem qBeq_eq {a b : ℚ} (h : qBeq a b = true) : a = b := by
  unfold qBeq at h
  simp only [Bool.and_eq_true, beq_iff_eq] at h
  exact Rat.ext h.1 h.2

/-- Projection-based equality test on points. -/
def listQBeq : List ℚ → List ℚ → Bool
  | [], [] => true
  | x :: xs, y :: ys => qBeq x y && listQBeq xs ys
  | _, _ => false

theorem listQBeq_eq : ∀ {a b : List ℚ}, listQBeq a b = true → a = b
  | [], [], _ => rfl
  | x :: xs, y :: ys, h => by
    unfold listQBeq at h
    simp only [Bool.and_eq_true] at h
    rw [qBeq_eq h.1, listQBeq_eq h.2]
  | [], _ :: _, h => by simp [listQBeq] at h
  | _ :: _, [], h => by simp [listQBeq] at h

/-- Projection-based equality test on datasets. -/
def pixListBeq : List (List ℚ) → List (List ℚ) → Bool
  | [], [] => true
  | x :: xs, y :: ys => listQBeq x y && pixListBeq xs ys
  | _, _ => false

theorem pixListBeq_eq : ∀ {a b : List (List ℚ)}, pixListBeq a b = true → a = b
  | [], [], _ => rfl
  | x :: xs, y :: ys, h => by
    unfold pixListBeq at h
    simp only [Bool.and_eq_true] at h
    rw [listQBeq_eq h.1, pixListBeq_eq h.2]
  | [], _ :: _, h => by simp [pixListBeq] at h
  | _ :: _, [], h => by simp [pixListBeq] at h

/-- Projection-based equality test on optional datasets. -/
def optPixBeq : Option (List (List ℚ)) → Option (List (List ℚ)) → Bool
  | none, none => true
  | some a, some b => pixListBeq a b
  | _, _ => false

theorem optPixBeq_eq : ∀ {a b : Option (List (List ℚ))}, optPixBeq a b = true → a = b
  | none, none, _ => rfl
  | some _, some _, h => congrArg some (pixListBeq_eq (by simpa [optPixBeq] using h))
  | none, some _, h => by simp [optPixBeq] at h
  | some _, none, h => by simp [optPixBeq] at h

/-! ## Concrete runs

The data below instantiates the embedding on concrete inputs.
`zeroOps` instantiates the abstract `cbrt`/`powf` trait methods with a
constant function; each run below is arranged so that only the
branch-free (rational) paths of the conversions are exercised, so no
stated fact depends on this choice.

`bytes51` is the byte buffer of 51 RGBA pixels: 25 of color
`(0,0,0,255)` followed by 26 of `(10,10,10,255)`, presented to `extract`
with dimensions `width = 960`, `height = 1` (the buffer length 204 is
not `4·960·1` — `extract` performs no validation and simply processes
`204/4 = 51` pixels).  Both colors stay below the linear-branch
thresholds of the sRGB transfer function, so the whole pipeline is
exact rational arithmetic.  With `epsilon = 1/40` and spatial spacing
`1/960`, same-color pixels within 24 columns are neighbors
(`(24/960)² = ε²`), different-color pixels never are (their L* alone
differ by `≈ 0.0274 > 1/40`), and `min_points = 25` makes every pixel a
core point of its segment: DBSCAN yields cluster 0 = the 25 black
pixels and cluster 1 = the 26 grey pixels, no outliers. -/

/-- A concrete instantiation of the abstract `Float` trait methods. -/
def zeroOps : FloatOps := ⟨fun _ => 0, fun _ _ => 0⟩

/-- The byte buffer of the 51-pixel run. -/
def bytes51 : List ℕ :=
  (List.replicate 25 [0, 0, 0, 255] ++ List.replicate 26 [10, 10, 10, 255]).flatten

/-- The 51 feature points `extract` builds from `bytes51` (black maps
to L*a*b* `(0,0,0)`; grey `(10,10,10)` to the rational value shown —
all branches linear). -/
def pix51 : List (List ℚ) := (List.range 51).map (fun p =>
  if p < 25 then [0, 0, 0, (p : ℚ)/960, 0]
  else [24389/889542, -210250/1077979463883, 42050/1235174878413, (p : ℚ)/960, 0])

/-- The DBSCAN labels of the 51-pixel run. -/
def labels51 : List Label :=
  List.replicate 25 (.Assigned 0) ++ List.replicate 26 (.Assigned 1)

/-- The swatch list of the 51-pixel run under `HashMap` iteration order
`[1, 0]`: the swatch carrying cluster 1's centroid color and position
is paired with `count_at(0) = 25`, and the sort leaves the list in
ascending percentage order. -/
def sw51 : List SwatchQ :=
  [⟨(10, 10, 10), (37, 0), 25/51⟩, ⟨(0, 0, 0), (12, 0), 26/51⟩]

set_option maxHeartbeats 2000000 in
theorem pix51_eq : buildPixels zeroOps 960 1 bytes51 0 = some pix51 :=
  optPixBeq_eq (by with_unfolding_all decide)

set_option maxHeartbeats 10000000 in
theorem fit51_eq :
    fitLabels pix51 25 (1/40) sqEuclid (fun d => d ≤ 1/1600) = some labels51 := by
  with_unfolding_all decide

set_option maxHeartbeats 2000000 in
theorem swatches51_eq :
    swatchesOf zeroOps pix51 labels51 960 1 [1, 0] = some sw51 := by
  with_unfolding_all decide

theorem extract51_eq : extractModel bytes51 960 1 zeroOps [1, 0] = some sw51 := by
  unfold extractModel
  rw [pix51_eq]
  show (some pix51).bind _ = _
  rw [Option.some_bind, fit51_eq]
  show (some labels51).bind _ = _
  rw [Option.some_bind]
  exact swatches51_eq

/-! ## k-d tree foundations -/

/-- The dataset indices stored in a (sub)tree. -/
def treeIndices : KdTree → List ℕ
  | .nil => []
  | .node i _ l r => i :: (treeIndices l ++ treeIndices r)

/-- On a nonempty dataset, `build_node` stores exactly the indices it
was given. -/
theorem treeIndices_buildNode (dataset : List (List ℚ)) (hds : dataset ≠ []) :
    ∀ (indices : List ℕ) (depth : ℕ),
      (treeIndices (buildNode dataset indices depth)).Perm indices := by
  intro indices depth
  induction indices, depth using buildNode.induct dataset with
  | case1 indices depth h =>
    rw [buildNode, if_pos h]
    rcases h with h | h
    · exact absurd (List.isEmpty_iff.mp h) hds
    · simp [treeIndices, List.isEmpty_iff.mp h]
  | case2 indices depth h axis sorted median ihl ihr =>
    rw [buildNode, if_neg h]
    simp only [treeIndices]
    have hne : indices ≠ [] := by
      intro hc
      exact h (Or.inr (by simp [hc]))
    have hlen : sorted.length = indices.length := List.length_mergeSort ..
    have hpos : 0 < sorted.length := by
      rw [hlen]
      exact List.length_pos.mpr hne
    have hm : median < sorted.length := Nat.div_lt_self hpos (by omega)
    have hget : sorted.getD median 0 = sorted[median] := List.getD_eq_getElem _ _ hm
    have hdrop : sorted.drop median = sorted[median] :: sorted.drop (median + 1) :=
      List.drop_eq_getElem_cons hm
    have hdecomp : sorted.take median ++ sorted[median] :: sorted.drop (median + 1) = sorted := by
      rw [← List.drop_eq_getElem_cons hm, List.take_append_drop]
    have h2 : (sorted.take median ++ sorted[median] :: sorted.drop (median + 1)).Perm sorted := by
      rw [hdecomp]
    refine List.Perm.trans ?_ (List.mergeSort_perm indices
      (fun i j => decide (coordAt dataset i axis ≤ coordAt dataset j axis)))
    rw [hget]
    exact List.Perm.trans (List.Perm.cons _ (List.Perm.append ihl ihr))
      (List.Perm.trans List.perm_middle.symm h2)

/-- The coordinate-ordering invariant of a built tree: at every node,
the axis coordinates of the left subtree's points are at most the
node's, and the right subtree's are at least the node's, and every
stored axis is below `dim`. -/
inductive BoundedTree (dataset : List (List ℚ)) (dim : ℕ) : KdTree → Prop
  | nil : BoundedTree dataset dim .nil
  | node {i a : ℕ} {l r : KdTree} :
      a < dim →
      (∀ j ∈ treeIndices l, coordAt dataset j a ≤ coordAt dataset i a) →
      (∀ j ∈ treeIndices r, coordAt dataset i a ≤ coordAt dataset j a) →
      BoundedTree dataset dim l → BoundedTree dataset dim r →
      BoundedTree dataset dim (.node i a l r)

/-- `build_node` satisfies the coordinate-ordering invariant: the sort
puts the median's axis coordinate between both halves. -/
theorem boundedTree_buildNode (dataset : List (List ℚ)) (hds : dataset ≠ [])
    (dim : ℕ) (hdim : (dataset.headD []).length = dim) (h0 : 0 < dim) :
    ∀ (indices : List ℕ) (depth : ℕ),
      BoundedTree dataset dim (buildNode dataset indices depth) := by
  intro indices depth
  induction indices, depth using buildNode.induct dataset with
  | case1 indices depth h =>
    rw [buildNode, if_pos h]
    exact BoundedTree.nil
  | case2 indices depth h axis sorted median ihl ihr =>
    rw [buildNode, if_neg h]
    have hne : indices ≠ [] := by
      intro hc
      exact h (Or.inr (by simp [hc]))
    have hlen : sorted.length = indices.length := List.length_mergeSort ..
    have hpos : 0 < sorted.length := by
      rw [hlen]
      exact List.length_pos.mpr hne
    have hm : median < sorted.length := Nat.div_lt_self hpos (by omega)
    have hget : sorted.getD median 0 = sorted[median] := List.getD_eq_getElem _ _ hm
    have haxis : axis < dim := by
      have hx : axis = depth % (dataset.headD []).length := rfl
      rw [hx, hdim]
      exact Nat.mod_lt _ h0
    -- the sorted index list is pairwise ordered by the axis coordinate
    have hsorted : List.Pairwise
        (fun i j => coordAt dataset i axis ≤ coordAt dataset j axis) sorted := by
      have := @List.sorted_mergeSort ℕ
        (fun i j => decide (coordAt dataset i axis ≤ coordAt dataset j axis))
        (fun a b c hab hbc => by
          simp only [decide_eq_true_eq] at *
          exact le_trans hab hbc)
        (fun a b => by
          simp only [Bool.or_eq_true, decide_eq_true_eq]
          exact le_total _ _)
        indices
      refine this.imp ?_
      intro a b hab
      simpa using hab
    have hdecomp : sorted.take median ++ sorted[median] :: sorted.drop (median + 1) = sorted := by
      rw [← List.drop_eq_getElem_cons hm, List.take_append_drop]
    have hsplit := hdecomp ▸ hsorted
    rw [List.pairwise_append] at hsplit
    obtain ⟨-, hcons, hcross⟩ := hsplit
    rw [List.pairwise_cons] at hcons
    refine BoundedTree.node haxis ?_ ?_ ihl ihr
    · intro j hj
      have hj2 : j ∈ sorted.take median :=
        (treeIndices_buildNode dataset hds _ _).mem_iff.mp hj
      rw [hget]
      exact hcross j hj2 sorted[median] (List.mem_cons_self _ _)
    · intro j hj
      have hj2 : j ∈ sorted.drop (median + 1) :=
        (treeIndices_buildNode dataset hds _ _).mem_iff.mp hj
      rw [hget]
      exact hcons.1 j hj2

theorem mem_heapPush {h : List ElementQ} {e x : ElementQ} :
    x ∈ heapPush h e ↔ x ∈ h ∨ x = e := by
  induction h with
  | nil => simp [heapPush]
  | cons y ys ih =>
    unfold heapPush
    split
    · constructor
      · intro hx
        rcases List.mem_cons.mp hx with hx | hx
        · exact Or.inr hx
        · exact Or.inl hx
      · intro hx
        rcases hx with hx | hx
        · exact List.mem_cons_of_mem _ hx
        · exact hx ▸ List.mem_cons_self _ _
    · rw [List.mem_cons, List.mem_cons, ih]
      tauto

theorem heapPush_map_perm (h : List ElementQ) (e : ElementQ) (f : ElementQ → ℕ) :
    ((heapPush h e).map f).Perm (f e :: h.map f) := by
  induction h with
  | nil => simp [heapPush]
  | cons y ys ih =>
    unfold heapPush
    split
    · simp
    · simp only [List.map_cons]
      exact (ih.cons (f y)).trans (List.Perm.swap _ _ _)

/-- Every element already accumulated survives the recursion. -/
theorem searchRadiusRec_acc_mem (dataset : List (List ℚ))
    (measure : List ℚ → List ℚ → ℚ) (rTest : ℚ → Bool) (radius : ℚ)
    (query : List ℚ) :
    ∀ (tree : KdTree) (acc : List ElementQ) (x : ElementQ), x ∈ acc →
      x ∈ searchRadiusRec dataset measure rTest radius query tree acc := by
  intro tree
  induction tree with
  | nil => intro acc x hx; exact hx
  | node idx axis l r ihl ihr =>
    intro acc x hx
    have hx1 : x ∈ if rTest (measure (dataset.getD idx []) query) then
        heapPush acc ⟨idx, measure (dataset.getD idx []) query⟩ else acc := by
      split
      · exact mem_heapPush.mpr (Or.inl hx)
      · exact hx
    simp only [searchRadiusRec]
    split
    · exact ihr _ _ (ihl _ _ hx1)
    · split
      · exact ihl _ _ hx1
      · exact ihr _ _ hx1

/-- Everything the radius search returns is either from the
accumulator or a tree node whose distance passes the radius test. -/
theorem searchRadiusRec_sound (dataset : List (List ℚ))
    (measure : List ℚ → List ℚ → ℚ) (rTest : ℚ → Bool) (radius : ℚ)
    (query : List ℚ) :
    ∀ (tree : KdTree) (acc : List ElementQ) (x : ElementQ),
      x ∈ searchRadiusRec dataset measure rTest radius query tree acc →
      x ∈ acc ∨ (x.index ∈ treeIndices tree ∧
        x.distance = measure (dataset.getD x.index []) query ∧
        rTest x.distance = true) := by
  intro tree
  induction tree with
  | nil => intro acc x hx; exact Or.inl hx
  | node idx axis l r ihl ihr =>
    intro acc x hx
    have step : ∀ y : ElementQ, (y ∈ if rTest (measure (dataset.getD idx []) query) then
        heapPush acc ⟨idx, measure (dataset.getD idx []) query⟩ else acc) →
        y ∈ acc ∨ (y.index ∈ treeIndices (KdTree.node idx axis l r) ∧
          y.distance = measure (dataset.getD y.index []) query ∧
          rTest y.distance = true) := by
      intro y hy
      by_cases ht : rTest (measure (dataset.getD idx []) query) = true
      · rw [if_pos ht] at hy
        rcases mem_heapPush.mp hy with hy | hy
        · exact Or.inl hy
        · subst hy
          exact Or.inr ⟨List.mem_cons_self _ _, rfl, ht⟩
      · rw [if_neg ht] at hy
        exact Or.inl hy
    have sub : ∀ (t1 t2 : KdTree) (hsub1 : treeIndices t1 ⊆ treeIndices (KdTree.node idx axis l r))
        (hsub2 : treeIndices t2 ⊆ treeIndices (KdTree.node idx axis l r))
        (ih1 : ∀ (acc : List ElementQ) (x : ElementQ),
          x ∈ searchRadiusRec dataset measure rTest radius query t1 acc →
          x ∈ acc ∨ (x.index ∈ treeIndices t1 ∧
            x.distance = measure (dataset.getD x.index []) query ∧ rTest x.distance = true))
        (ih2 : ∀ (acc : List ElementQ) (x : ElementQ),
          x ∈ searchRadiusRec dataset measure rTest radius query t2 acc →
          x ∈ acc ∨ (x.index ∈ treeIndices t2 ∧
            x.distance = measure (dataset.getD x.index []) query ∧ rTest x.distance = true))
        (acc1 : List ElementQ)
        (hx2 : x ∈ searchRadiusRec dataset measure rTest radius query t2
          (searchRadiusRec dataset measure rTest radius query t1 acc1))
        (hacc : ∀ y : ElementQ, y ∈ acc1 →
          y ∈ acc ∨ (y.index ∈ treeIndices (KdTree.node idx axis l r) ∧
            y.distance = measure (dataset.getD y.index []) query ∧ rTest y.distance = true)),
        x ∈ acc ∨ (x.index ∈ treeIndices (KdTree.node idx axis l r) ∧
          x.distance = measure (dataset.getD x.index []) query ∧ rTest x.distance = true) := by
      intro t1 t2 hsub1 hsub2 ih1 ih2 acc1 hx2 hacc
      rcases ih2 _ _ hx2 with hx3 | hx3
      · rcases ih1 _ _ hx3 with hx4 | hx4
        · exact hacc _ hx4
        · exact Or.inr ⟨hsub1 hx4.1, hx4.2⟩
      · exact Or.inr ⟨hsub2 hx3.1, hx3.2⟩
    have hsubl : treeIndices l ⊆ treeIndices (KdTree.node idx axis l r) := by
      intro a ha
      simp [treeIndices, List.mem_append, ha]
    have hsubr : treeIndices r ⊆ treeIndices (KdTree.node idx axis l r) := by
      intro a ha
      simp [treeIndices, List.mem_append, ha]
    simp only [searchRadiusRec] at hx
    split at hx
    · exact sub l r hsubl hsubr ihl ihr _ hx step
    · split at hx
      · rcases ihl _ _ hx with hx3 | hx3
        · exact step _ hx3
        · exact Or.inr ⟨hsubl hx3.1, hx3.2⟩
      · rcases ihr _ _ hx with hx3 | hx3
        · exact step _ hx3
        · exact Or.inr ⟨hsubr hx3.1, hx3.2⟩

/-- A query point that is itself a stored dataset point is always
found by the radius search (for a non-negative radius and a radius
test that accepts its own distance): the descent along `sign(delta)`
always keeps the subtree containing the query point. -/
theorem searchRadiusRec_self (dataset : List (List ℚ))
    (measure : List ℚ → List ℚ → ℚ) (rTest : ℚ → Bool) (radius : ℚ)
    (dim : ℕ) (i : ℕ) (hr : 0 ≤ radius)
    (hrt : rTest (measure (dataset.getD i []) (dataset.getD i [])) = true)
    {tree : KdTree} (hb : BoundedTree dataset dim tree)
    (hmem : i ∈ treeIndices tree) :
    ∀ acc, (⟨i, measure (dataset.getD i []) (dataset.getD i [])⟩ : ElementQ) ∈
      searchRadiusRec dataset measure rTest radius (dataset.getD i []) tree acc := by
  induction hb with
  | nil => simp [treeIndices] at hmem
  | @node idx a l r haxis hbl hbr btl btr ihl ihr =>
    intro acc
    simp only [searchRadiusRec]
    rcases List.mem_cons.mp hmem with hi | hi
    · -- the node itself is the query point: it is pushed, and pushed
      -- elements survive the recursion
      subst hi
      rw [if_pos hrt]
      have hpush : (⟨i, measure (dataset.getD i []) (dataset.getD i [])⟩ : ElementQ) ∈
          heapPush acc ⟨i, measure (dataset.getD i []) (dataset.getD i [])⟩ :=
        mem_heapPush.mpr (Or.inr rfl)
      split
      · exact searchRadiusRec_acc_mem _ _ _ _ _ _ _ _
          (searchRadiusRec_acc_mem _ _ _ _ _ _ _ _ hpush)
      · split
        · exact searchRadiusRec_acc_mem _ _ _ _ _ _ _ _ hpush
        · exact searchRadiusRec_acc_mem _ _ _ _ _ _ _ _ hpush
    · rcases List.mem_append.mp hi with hi | hi
      · -- the query point lives in the left subtree
        have hcoord : coordAt dataset i a ≤ coordAt dataset idx a := hbl i hi
        have hdelta : (dataset.getD i []).getD a 0 - (dataset.getD idx []).getD a 0 ≤ 0 := by
          have : coordAt dataset i a = (dataset.getD i []).getD a 0 := rfl
          have h2 : coordAt dataset idx a = (dataset.getD idx []).getD a 0 := rfl
          linarith [hcoord, this, h2]
        split
        · exact searchRadiusRec_acc_mem _ _ _ _ _ _ _ _ (ihl hi _)
        · rename_i hprune
          split
          · exact ihl hi _
          · rename_i hdlt
            exfalso
            have hz : (dataset.getD i []).getD a 0 - (dataset.getD idx []).getD a 0 = 0 := by
              rcases lt_or_eq_of_le hdelta with hlt | heq
              · exact absurd hlt hdlt
              · exact heq
            rw [hz] at hprune
            exact hprune (by simpa [qAbs] using hr)
      · -- the query point lives in the right subtree
        have hcoord : coordAt dataset idx a ≤ coordAt dataset i a := hbr i hi
        have hdelta : 0 ≤ (dataset.getD i []).getD a 0 - (dataset.getD idx []).getD a 0 := by
          have : coordAt dataset i a = (dataset.getD i []).getD a 0 := rfl
          have h2 : coordAt dataset idx a = (dataset.getD idx []).getD a 0 := rfl
          linarith [hcoord, this, h2]
        split
        · exact ihr hi _
        · split
          · rename_i hdlt
            exact absurd hdlt (not_lt.mpr hdelta)
          · exact ihr hi _

/-- Each list is nonnegative term-by-term, so a fold of `(+)` only grows. -/
theorem foldl_add_ge_init (l : List ℚ) (init : ℚ) (hl : ∀ x ∈ l, 0 ≤ x) :
    init ≤ l.foldl (· + ·) init := by
  induction l generalizing init with
  | nil => exact le_refl _
  | cons y ys ih =>
    have hy : 0 ≤ y := hl y (List.mem_cons_self _ _)
    have := ih (init + y) (fun x hx => hl x (List.mem_cons_of_mem _ hx))
    simp only [List.foldl_cons]
    linarith

/-- Any member of a nonnegative list is at most its `(+)`-fold. -/
theorem mem_le_foldl_add (l : List ℚ) (init : ℚ) (h0 : 0 ≤ init)
    (hl : ∀ x ∈ l, 0 ≤ x) : ∀ x ∈ l, x ≤ l.foldl (· + ·) init := by
  induction l generalizing init with
  | nil => intro x hx; simp at hx
  | cons y ys ih =>
    intro x hx
    have hy : 0 ≤ y := hl y (List.mem_cons_self _ _)
    have htail : ∀ z ∈ ys, 0 ≤ z := fun z hz => hl z (List.mem_cons_of_mem _ hz)
    rcases List.mem_cons.mp hx with hx | hx
    · subst hx
      have := foldl_add_ge_init ys (init + x) htail
      simp only [List.foldl_cons]
      linarith
    · simpa only [List.foldl_cons] using ih (init + y) (by linarith) htail x hx

/-- One squared coordinate difference is a lower bound for the whole
squared euclidean distance. -/
theorem sq_coord_le_sqEuclid (z q : List ℚ) (a : ℕ)
    (h1 : a < z.length) (h2 : a < q.length) :
    (z.getD a 0 - q.getD a 0) * (z.getD a 0 - q.getD a 0) ≤ sqEuclid z q := by
  unfold sqEuclid
  have hlen : a < (List.zipWith (fun x y => x - y) z q).length := by
    rw [List.length_zipWith]; omega
  have hlen2 : a < ((List.zipWith (fun x y => x - y) z q).map (fun d => d * d)).length := by
    rw [List.length_map]; exact hlen
  have hget : ((List.zipWith (fun x y => x - y) z q).map (fun d => d * d))[a] =
      (z.getD a 0 - q.getD a 0) * (z.getD a 0 - q.getD a 0) := by
    rw [List.getElem_map, List.getElem_zipWith,
      List.getD_eq_getElem z 0 h1, List.getD_eq_getElem q 0 h2]
  have hmem : (z.getD a 0 - q.getD a 0) * (z.getD a 0 - q.getD a 0) ∈
      (List.zipWith (fun x y => x - y) z q).map (fun d => d * d) := by
    rw [← hget]; exact List.getElem_mem hlen2
  refine mem_le_foldl_add _ 0 (le_refl 0) ?_ _ hmem
  intro x hx
  rcases List.mem_map.mp hx with ⟨d, _, rfl⟩
  exact mul_self_nonneg d

/-- Completeness of the recursive radius search for the squared
euclidean measure: when the radius test rejects every distance whose
square root exceeds `radius`, the axis-difference prune never discards
a dataset point whose distance passes the test. -/
theorem searchRadiusRec_complete (dataset : List (List ℚ))
    (rTest : ℚ → Bool) (radius : ℚ) (q : List ℚ) (dim : ℕ)
    (hdims : ∀ p ∈ dataset, p.length = dim) (hq : q.length = dim)
    (hsafe : ∀ t v, radius < t → t * t ≤ v → rTest v = false)
    {tree : KdTree} (hb : BoundedTree dataset dim tree)
    (i : ℕ) (hiN : i < dataset.length) (hmem : i ∈ treeIndices tree)
    (hrt : rTest (sqEuclid (dataset.getD i []) q) = true) :
    ∀ acc, (⟨i, sqEuclid (dataset.getD i []) q⟩ : ElementQ) ∈
      searchRadiusRec dataset sqEuclid rTest radius q tree acc := by
  have hzlen : (dataset.getD i []).length = dim := by
    rw [List.getD_eq_getElem dataset [] hiN]
    exact hdims _ (List.getElem_mem hiN)
  induction hb with
  | nil => simp [treeIndices] at hmem
  | @node idx a l r haxis hbl hbr btl btr ihl ihr =>
    intro acc
    simp only [searchRadiusRec]
    rcases List.mem_cons.mp hmem with hi | hi
    · -- the node itself holds the sought index
      subst hi
      have hres1 : (if rTest (sqEuclid (dataset.getD i []) q) = true
          then heapPush acc ⟨i, sqEuclid (dataset.getD i []) q⟩ else acc)
          = heapPush acc ⟨i, sqEuclid (dataset.getD i []) q⟩ := if_pos hrt
      rw [hres1]
      have hpush : (⟨i, sqEuclid (dataset.getD i []) q⟩ : ElementQ) ∈
          heapPush acc ⟨i, sqEuclid (dataset.getD i []) q⟩ :=
        mem_heapPush.mpr (Or.inr rfl)
      split
      · exact searchRadiusRec_acc_mem _ _ _ _ _ _ _ _
          (searchRadiusRec_acc_mem _ _ _ _ _ _ _ _ hpush)
      · split
        · exact searchRadiusRec_acc_mem _ _ _ _ _ _ _ _ hpush
        · exact searchRadiusRec_acc_mem _ _ _ _ _ _ _ _ hpush
    · have halt : a < (dataset.getD i []).length := by rw [hzlen]; exact haxis
      have haqt : a < q.length := by rw [hq]; exact haxis
      have hsqle : (q.getD a 0 - (dataset.getD i []).getD a 0) *
          (q.getD a 0 - (dataset.getD i []).getD a 0) ≤
          sqEuclid (dataset.getD i []) q := by
        have := sq_coord_le_sqEuclid (dataset.getD i []) q a halt haqt
        calc (q.getD a 0 - (dataset.getD i []).getD a 0) *
              (q.getD a 0 - (dataset.getD i []).getD a 0)
            = ((dataset.getD i []).getD a 0 - q.getD a 0) *
              ((dataset.getD i []).getD a 0 - q.getD a 0) := by ring
          _ ≤ sqEuclid (dataset.getD i []) q := this
      rcases List.mem_append.mp hi with hi | hi
      · -- the sought index lives in the left subtree
        have hcoord : coordAt dataset i a ≤ coordAt dataset idx a := hbl i hi
        have hzle : (dataset.getD i []).getD a 0 ≤ (dataset.getD idx []).getD a 0 := hcoord
        split
        · exact searchRadiusRec_acc_mem _ _ _ _ _ _ _ _ (ihl hi _)
        · rename_i hprune
          split
          · exact ihl hi _
          · rename_i hdge
            exfalso
            -- the prune sends the search right only, but the point is left:
            -- its axis distance then exceeds the radius, so its full
            -- distance cannot pass the safe test
            have hd0 : 0 ≤ q.getD a 0 - (dataset.getD idx []).getD a 0 :=
              le_of_not_lt hdge
            have habs : qAbs (q.getD a 0 - (dataset.getD idx []).getD a 0) =
                q.getD a 0 - (dataset.getD idx []).getD a 0 := by
              unfold qAbs
              rw [if_neg (not_lt.mpr hd0)]
            have hgt : radius < q.getD a 0 - (dataset.getD idx []).getD a 0 := by
              have := lt_of_not_le hprune
              rw [habs] at this
              exact this
            have hgt2 : radius < q.getD a 0 - (dataset.getD i []).getD a 0 := by
              linarith
            have := hsafe _ _ hgt2 hsqle
            rw [this] at hrt
            exact Bool.noConfusion hrt
      · -- the sought index lives in the right subtree
        have hcoord : coordAt dataset idx a ≤ coordAt dataset i a := hbr i hi
        have hzge : (dataset.getD idx []).getD a 0 ≤ (dataset.getD i []).getD a 0 := hcoord
        split
        · exact ihr hi _
        · rename_i hprune
          split
          · rename_i hdlt
            exfalso
            have habs : qAbs (q.getD a 0 - (dataset.getD idx []).getD a 0) =
                -(q.getD a 0 - (dataset.getD idx []).getD a 0) := by
              unfold qAbs
              rw [if_pos hdlt]
            have hgt : radius < (dataset.getD idx []).getD a 0 - q.getD a 0 := by
              have := lt_of_not_le hprune
              rw [habs] at this
              linarith
            have hgt2 : radius < (dataset.getD i []).getD a 0 - q.getD a 0 := by
              linarith
            have hsqle2 : ((dataset.getD i []).getD a 0 - q.getD a 0) *
                ((dataset.getD i []).getD a 0 - q.getD a 0) ≤
                sqEuclid (dataset.getD i []) q := by
              calc ((dataset.getD i []).getD a 0 - q.getD a 0) *
                    ((dataset.getD i []).getD a 0 - q.getD a 0)
                  = (q.getD a 0 - (dataset.getD i []).getD a 0) *
                    (q.getD a 0 - (dataset.getD i []).getD a 0) := by ring
                _ ≤ sqEuclid (dataset.getD i []) q := hsqle
            have := hsafe _ _ hgt2 hsqle2
            rw [this] at hrt
            exact Bool.noConfusion hrt
          · exact ihr hi _

/-- The radius search never collects the same dataset index twice:
each tree node is visited at most once. -/
theorem searchRadiusRec_index_nodup (dataset : List (List ℚ))
    (measure : List ℚ → List ℚ → ℚ) (rTest : ℚ → Bool) (radius : ℚ)
    (query : List ℚ) :
    ∀ (tree : KdTree) (acc : List ElementQ),
      (treeIndices tree).Nodup →
      (acc.map ElementQ.index).Nodup →
      (∀ x ∈ acc, x.index ∉ treeIndices tree) →
      ((searchRadiusRec dataset measure rTest radius query tree acc).map
        ElementQ.index).Nodup := by
  intro tree
  induction tree with
  | nil => intro acc _ hacc _; exact hacc
  | node idx axis l r ihl ihr =>
    intro acc hnd hacc hdisj
    have hnd' := hnd
    rw [treeIndices, List.nodup_cons, List.nodup_append] at hnd'
    obtain ⟨hidx, hndl, hndr, hlr⟩ := hnd'
    -- the element pushed at this node keeps the accumulator duplicate-free
    have hres1nd : ((if rTest (measure (dataset.getD idx []) query) then
        heapPush acc ⟨idx, measure (dataset.getD idx []) query⟩ else acc).map
        ElementQ.index).Nodup := by
      split
      · refine (heapPush_map_perm acc
          ⟨idx, measure (dataset.getD idx []) query⟩ ElementQ.index).symm.nodup ?_
        rw [List.nodup_cons]
        refine ⟨?_, hacc⟩
        intro hc
        rcases List.mem_map.mp hc with ⟨y, hy, hyix⟩
        exact hdisj y hy (by rw [hyix]; exact List.mem_cons_self _ _)
      · exact hacc
    have hres1l : ∀ x ∈ (if rTest (measure (dataset.getD idx []) query) then
        heapPush acc ⟨idx, measure (dataset.getD idx []) query⟩ else acc),
        x.index ∉ treeIndices l := by
      intro x hx hc
      have hx' : x ∈ acc ∨ x = ⟨idx, measure (dataset.getD idx []) query⟩ := by
        by_cases ht : rTest (measure (dataset.getD idx []) query) = true
        · rw [if_pos ht] at hx; exact mem_heapPush.mp hx
        · rw [if_neg ht] at hx; exact Or.inl hx
      rcases hx' with hx' | hx'
      · exact hdisj x hx' (by rw [treeIndices]; right; exact List.mem_append_left _ hc)
      · exact hidx (by subst hx'; exact List.mem_append_left _ hc)
    have hres1r : ∀ x ∈ (if rTest (measure (dataset.getD idx []) query) then
        heapPush acc ⟨idx, measure (dataset.getD idx []) query⟩ else acc),
        x.index ∉ treeIndices r := by
      intro x hx hc
      have hx' : x ∈ acc ∨ x = ⟨idx, measure (dataset.getD idx []) query⟩ := by
        by_cases ht : rTest (measure (dataset.getD idx []) query) = true
        · rw [if_pos ht] at hx; exact mem_heapPush.mp hx
        · rw [if_neg ht] at hx; exact Or.inl hx
      rcases hx' with hx' | hx'
      · exact hdisj x hx' (by rw [treeIndices]; right; exact List.mem_append_right _ hc)
      · exact hidx (by subst hx'; exact List.mem_append_right _ hc)
    simp only [searchRadiusRec]
    split
    · refine ihr _ hndr (ihl _ hndl hres1nd hres1l) ?_
      intro x hx hc
      rcases searchRadiusRec_sound dataset measure rTest radius query l _ x hx with
        hx' | ⟨hx', _, _⟩
      · exact hres1r x hx' hc
      · exact hlr hx' hc
    · split
      · exact ihl _ hndl hres1nd hres1l
      · exact ihr _ hndr hres1nd hres1r

/-- The squared euclidean distance from a point to itself is zero. -/
theorem sqEuclid_self (p : List ℚ) : sqEuclid p p = 0 := by
  unfold sqEuclid
  induction p with
  | nil => rfl
  | cons x xs ih =>
    simp only [List.zipWith_cons_cons, List.map_cons, List.foldl_cons]
    have hx : x - x = 0 := by ring
    rw [hx]
    simpa using ih

theorem map_toNeighbor_index (R : List ElementQ) :
    ((R.map (fun e => (⟨e.index, e.distance⟩ : NeighborQ))).map NeighborQ.index) =
      R.map ElementQ.index := by
  rw [List.map_map]
  rfl

/-- `search_radius` on the squared euclidean measure is exact whenever
the radius test refuses every distance whose square root exceeds the
prune radius: the result lists exactly the indices whose distance
passes the test, once each, with correct distances. -/
theorem kdSearchRadius_exact (dataset : List (List ℚ)) (rTest : ℚ → Bool)
    (radius : ℚ) (q : List ℚ) (dim : ℕ) (h0 : 0 < dim)
    (hdims : ∀ p ∈ dataset, p.length = dim) (hq : q.length = dim)
    (hr : 0 ≤ radius)
    (hsafe : ∀ t v, radius < t → t * t ≤ v → rTest v = false) :
    (∀ i : ℕ, i ∈ (kdSearchRadius dataset sqEuclid rTest radius q).map NeighborQ.index ↔
      (i < dataset.length ∧ rTest (sqEuclid (dataset.getD i []) q) = true)) ∧
    ((kdSearchRadius dataset sqEuclid rTest radius q).map NeighborQ.index).Nodup ∧
    (∀ n ∈ kdSearchRadius dataset sqEuclid rTest radius q,
      n.distance = sqEuclid (dataset.getD n.index []) q) := by
  by_cases hds : dataset = []
  · subst hds
    have hempty : kdSearchRadius [] sqEuclid rTest radius q = [] := by
      rw [kdSearchRadius, if_neg (not_lt.mpr hr)]
      show (searchRadiusRec [] sqEuclid rTest radius q
        (buildNode [] (List.range (List.length ([] : List (List ℚ)))) 0) []).map _ = []
      rw [buildNode]
      rfl
    rw [hempty]
    refine ⟨?_, by simp, by simp⟩
    intro i
    simp
  · have hhead : (dataset.headD []).length = dim := by
      cases dataset with
      | nil => exact absurd rfl hds
      | cons a t => exact hdims a (List.mem_cons_self _ _)
    have htperm := treeIndices_buildNode dataset hds (List.range dataset.length) 0
    have hbt := boundedTree_buildNode dataset hds dim hhead h0 (List.range dataset.length) 0
    have hres : kdSearchRadius dataset sqEuclid rTest radius q =
        (searchRadiusRec dataset sqEuclid rTest radius q
          (buildNode dataset (List.range dataset.length) 0) []).map
          (fun e => (⟨e.index, e.distance⟩ : NeighborQ)) := by
      rw [kdSearchRadius, if_neg (not_lt.mpr hr)]
    rw [hres]
    refine ⟨?_, ?_, ?_⟩
    · intro i
      rw [map_toNeighbor_index]
      constructor
      · intro hi
        rcases List.mem_map.mp hi with ⟨x, hx, rfl⟩
        rcases searchRadiusRec_sound dataset sqEuclid rTest radius q _ _ _ hx with
          hx' | ⟨hx1, hx2, hx3⟩
        · simp at hx'
        · refine ⟨?_, ?_⟩
          · exact List.mem_range.mp (htperm.mem_iff.mp hx1)
          · rw [hx2] at hx3; exact hx3
      · rintro ⟨hiN, hrt⟩
        have hmem : i ∈ treeIndices (buildNode dataset (List.range dataset.length) 0) :=
          htperm.mem_iff.mpr (List.mem_range.mpr hiN)
        have := searchRadiusRec_complete dataset rTest radius q dim hdims hq hsafe
          hbt i hiN hmem hrt []
        exact List.mem_map.mpr ⟨_, this, rfl⟩
    · rw [map_toNeighbor_index]
      refine searchRadiusRec_index_nodup dataset sqEuclid rTest radius q _ _ ?_ (by simp)
        (by simp)
      exact htperm.symm.nodup (List.nodup_range _)
    · intro n hn
      rcases List.mem_map.mp hn with ⟨x, hx, rfl⟩
      rcases searchRadiusRec_sound dataset sqEuclid rTest radius q _ _ _ hx with
        hx' | ⟨hx1, hx2, hx3⟩
      · simp at hx'
      · exact hx2

theorem getD_set_self (l : List Label) (j : ℕ) (v d : Label) (h : j < l.length) :
    (l.set j v).getD j d = v := by
  simp [List.getD_eq_getElem?_getD, List.getElem?_set, h]

theorem getD_set_ne (l : List Label) (i j : ℕ) (v d : Label) (hne : j ≠ i) :
    (l.set j v).getD i d = l.getD i d := by
  simp [List.getD_eq_getElem?_getD, List.getElem?_set, hne]

theorem length_enqueueSecondary (st : List Label × List ℕ) (idx : ℕ) :
    (enqueueSecondary st idx).1.length = st.1.length := by
  unfold enqueueSecondary
  split <;> simp

theorem queue_sub_enqueueSecondary (st : List Label × List ℕ) (idx : ℕ) :
    st.2 ⊆ (enqueueSecondary st idx).2 := by
  unfold enqueueSecondary
  split
  · exact List.subset_append_left _ _
  · exact List.subset_append_left _ _
  · exact fun _ h => h

theorem queue_mem_enqueueSecondary (st : List Label × List ℕ) (idx j : ℕ)
    (hj : j ∈ (enqueueSecondary st idx).2) : j ∈ st.2 ∨ j = idx := by
  unfold enqueueSecondary at hj
  split at hj
  · rcases List.mem_append.mp hj with h | h
    · exact Or.inl h
    · exact Or.inr (by simpa using h)
  · rcases List.mem_append.mp hj with h | h
    · exact Or.inl h
    · exact Or.inr (by simpa using h)
  · exact Or.inl hj

/-- One enqueue step either leaves a label unchanged or freshly marks
an `Undefined` one and puts it into the queue. -/
theorem label_enqueueSecondary (st : List Label × List ℕ) (idx i : ℕ) :
    (enqueueSecondary st idx).1.getD i .Undefined = st.1.getD i .Undefined ∨
    (st.1.getD i .Undefined = .Undefined ∧
      (enqueueSecondary st idx).1.getD i .Undefined = .Marked ∧
      i ∈ (enqueueSecondary st idx).2) := by
  unfold enqueueSecondary
  split
  · rename_i heq
    by_cases hi : idx = i
    · subst hi
      by_cases hlt : idx < st.1.length
      · exact Or.inr ⟨heq, getD_set_self _ _ _ _ hlt, by simp⟩
      · left
        rw [List.set_eq_of_length_le (le_of_not_lt hlt)]
    · exact Or.inl (getD_set_ne _ _ _ _ _ hi)
  · exact Or.inl rfl
  · exact Or.inl rfl

theorem marked_enqueueSecondary (st : List Label × List ℕ) (idx : ℕ)
    (h : ∀ i, st.1.getD i .Undefined = .Marked → i ∈ st.2) :
    ∀ i, (enqueueSecondary st idx).1.getD i .Undefined = .Marked →
      i ∈ (enqueueSecondary st idx).2 := by
  intro i hi
  rcases label_enqueueSecondary st idx i with he | ⟨_, _, hm⟩
  · rw [he] at hi
    exact queue_sub_enqueueSecondary st idx (h i hi)
  · exact hm

theorem length_foldl_enqueue (xs : List ℕ) (st : List Label × List ℕ) :
    (xs.foldl enqueueSecondary st).1.length = st.1.length := by
  induction xs generalizing st with
  | nil => rfl
  | cons x xs ih => rw [List.foldl_cons, ih, length_enqueueSecondary]

theorem queue_sub_foldl_enqueue (xs : List ℕ) (st : List Label × List ℕ) :
    st.2 ⊆ (xs.foldl enqueueSecondary st).2 := by
  induction xs generalizing st with
  | nil => exact fun _ h => h
  | cons x xs ih =>
    rw [List.foldl_cons]
    exact fun a ha => ih _ (queue_sub_enqueueSecondary st x ha)

theorem queue_mem_foldl_enqueue (xs : List ℕ) (st : List Label × List ℕ) (j : ℕ)
    (hj : j ∈ (xs.foldl enqueueSecondary st).2) : j ∈ st.2 ∨ j ∈ xs := by
  induction xs generalizing st with
  | nil => exact Or.inl hj
  | cons x xs ih =>
    rw [List.foldl_cons] at hj
    rcases ih _ hj with h | h
    · rcases queue_mem_enqueueSecondary st x j h with h' | h'
      · exact Or.inl h'
      · exact Or.inr (by simp [h'])
    · exact Or.inr (List.mem_cons_of_mem _ h)

theorem label_foldl_enqueue (xs : List ℕ) (st : List Label × List ℕ) (i : ℕ) :
    (xs.foldl enqueueSecondary st).1.getD i .Undefined = st.1.getD i .Undefined ∨
    (st.1.getD i .Undefined = .Undefined ∧
      (xs.foldl enqueueSecondary st).1.getD i .Undefined = .Marked) := by
  induction xs generalizing st with
  | nil => exact Or.inl rfl
  | cons x xs ih =>
    rw [List.foldl_cons]
    rcases ih (enqueueSecondary st x) with he | ⟨he1, he2⟩
    · rcases label_enqueueSecondary st x i with hf | ⟨hf1, hf2, _⟩
      · exact Or.inl (he.trans hf)
      · exact Or.inr ⟨hf1, he.trans hf2⟩
    · rcases label_enqueueSecondary st x i with hf | ⟨hf1, hf2, _⟩
      · exact Or.inr ⟨by rw [← hf]; exact he1, he2⟩
      · exact Or.inr ⟨hf1, he2⟩

theorem marked_foldl_enqueue (xs : List ℕ) (st : List Label × List ℕ)
    (h : ∀ i, st.1.getD i .Undefined = .Marked → i ∈ st.2) :
    ∀ i, (xs.foldl enqueueSecondary st).1.getD i .Undefined = .Marked →
      i ∈ (xs.foldl enqueueSecondary st).2 := by
  induction xs generalizing st with
  | nil => exact h
  | cons x xs ih =>
    rw [List.foldl_cons]
    exact ih (enqueueSecondary st x) (marked_enqueueSecondary st x h)

/-- The radius neighborhood list used by both `DBSCAN::fit` and
`DBSCAN::expand_cluster` (`ns.search_radius(point, params.epsilon())`
with the tree prebuilt over the whole dataset). -/
def secondaryOf (dataset : List (List ℚ)) (measure : List ℚ → List ℚ → ℚ)
    (rTest : ℚ → Bool) (epsilon : ℚ) (tree : KdTree) (j : ℕ) : List NeighborQ :=
  if epsilon < 0 then []
  else (searchRadiusRec dataset measure rTest epsilon (dataset.getD j []) tree []).map
    (fun e => ⟨e.index, e.distance⟩)

theorem secondaryOf_index_lt (dataset : List (List ℚ))
    (measure : List ℚ → List ℚ → ℚ) (rTest : ℚ → Bool) (epsilon : ℚ)
    (tree : KdTree) (j : ℕ)
    (htree : ∀ x ∈ treeIndices tree, x < dataset.length) :
    ∀ nb ∈ secondaryOf dataset measure rTest epsilon tree j,
      nb.index < dataset.length := by
  intro nb hnb
  unfold secondaryOf at hnb
  split at hnb
  · simp at hnb
  · rcases List.mem_map.mp hnb with ⟨e, he, rfl⟩
    rcases searchRadiusRec_sound dataset measure rTest epsilon
      (dataset.getD j []) _ _ _ he with h | ⟨h1, _, _⟩
    · simp at h
    · exact htree _ h1

/-- Unfolding equation for `expandCluster` at a nonempty queue, with
the neighborhood named. -/
theorem expandCluster_cons (cid : ℕ) (dataset : List (List ℚ)) (minPoints : ℕ)
    (epsilon : ℚ) (measure : List ℚ → List ℚ → ℚ) (rTest : ℚ → Bool)
    (tree : KdTree) (j : ℕ) (rest : List ℕ) (labels : List Label) :
    expandCluster cid dataset minPoints epsilon measure rTest tree (j :: rest) labels =
      if labels.length ≤ j then none
      else if (labels.getD j .Undefined).isAssigned then
        expandCluster cid dataset minPoints epsilon measure rTest tree rest labels
      else if (labels.getD j .Undefined).isOutlier then
        expandCluster cid dataset minPoints epsilon measure rTest tree rest
          (labels.set j (.Assigned cid))
      else if (secondaryOf dataset measure rTest epsilon tree j).length < minPoints then
        expandCluster cid dataset minPoints epsilon measure rTest tree rest
          (labels.set j (.Assigned cid))
      else
        expandCluster cid dataset minPoints epsilon measure rTest tree
          (((secondaryOf dataset measure rTest epsilon tree j).map (·.index)).foldl
            enqueueSecondary (labels.set j (.Assigned cid), rest)).2
          (((secondaryOf dataset measure rTest epsilon tree j).map (·.index)).foldl
            enqueueSecondary (labels.set j (.Assigned cid), rest)).1 := by
  rw [expandCluster]
  rfl

/-- Master invariant of `DBSCAN::expand_cluster`: on a queue of
in-range indices with every `Marked` label queued, it succeeds (no
out-of-range indexing), preserves the label count, leaves no `Marked`
label, assigns every queued index, and never unassigns a point. -/
theorem expandCluster_spec (cid : ℕ) (dataset : List (List ℚ)) (minPoints : ℕ)
    (epsilon : ℚ) (measure : List ℚ → List ℚ → ℚ) (rTest : ℚ → Bool)
    (tree : KdTree)
    (htree : ∀ x ∈ treeIndices tree, x < dataset.length) :
    ∀ (queue : List ℕ) (labels : List Label),
      labels.length = dataset.length →
      (∀ x ∈ queue, x < dataset.length) →
      (∀ i, labels.getD i .Undefined = .Marked → i ∈ queue) →
      ∃ labels2,
        expandCluster cid dataset minPoints epsilon measure rTest tree queue labels =
          some labels2 ∧
        labels2.length = dataset.length ∧
        (∀ i, labels2.getD i .Undefined ≠ .Marked) ∧
        (∀ x ∈ queue, (labels2.getD x .Undefined).isAssigned = true) ∧
        (∀ i, (labels.getD i .Undefined).isAssigned = true →
          (labels2.getD i .Undefined).isAssigned = true) ∧
        (∀ i, ((labels.getD i .Undefined).isAssigned = true ∨
            (labels.getD i .Undefined).isOutlier = true) →
          ((labels2.getD i .Undefined).isAssigned = true ∨
            (labels2.getD i .Undefined).isOutlier = true)) := by
  intro queue labels
  induction queue, labels using expandCluster.induct cid dataset minPoints epsilon measure rTest tree with
  | case1 labels =>
    intro hlen hqN hmk
    refine ⟨labels, by rw [expandCluster], hlen, ?_, by simp, fun i h => h, fun i h => h⟩
    intro i hi
    exact absurd (hmk i hi) (List.not_mem_nil i)
  | case2 j rest labels hj =>
    intro hlen hqN hmk
    exfalso
    have := hqN j (List.mem_cons_self _ _)
    omega
  | case3 j rest labels hj ha ih =>
    intro hlen hqN hmk
    have hmk' : ∀ i, labels.getD i .Undefined = .Marked → i ∈ rest := by
      intro i hi
      rcases List.mem_cons.mp (hmk i hi) with h | h
      · exfalso
        subst h
        rw [hi] at ha
        exact absurd ha (by decide)
      · exact h
    obtain ⟨labels2, heq, h1, h2, h3, h4, h5⟩ :=
      ih hlen (fun x hx => hqN x (List.mem_cons_of_mem _ hx)) hmk'
    refine ⟨labels2, ?_, h1, h2, ?_, h4, h5⟩
    · rw [expandCluster_cons, if_neg hj, if_pos ha]
      exact heq
    · intro x hx
      rcases List.mem_cons.mp hx with h | h
      · subst h
        exact h4 x ha
      · exact h3 x h
  | case4 j rest labels hj ha ho ih =>
    intro hlen hqN hmk
    have hj' : j < labels.length := lt_of_not_le hj
    have hlen' : (labels.set j (.Assigned cid)).length = dataset.length := by
      rw [List.length_set]; exact hlen
    have hmk' : ∀ i, (labels.set j (.Assigned cid)).getD i .Undefined = .Marked →
        i ∈ rest := by
      intro i hi
      by_cases hij : j = i
      · subst hij
        rw [getD_set_self _ _ _ _ hj'] at hi
        exact Label.noConfusion hi
      · rw [getD_set_ne _ _ _ _ _ hij] at hi
        rcases List.mem_cons.mp (hmk i hi) with h | h
        · exact absurd h.symm hij
        · exact h
    obtain ⟨labels2, heq, h1, h2, h3, h4, h5⟩ :=
      ih hlen' (fun x hx => hqN x (List.mem_cons_of_mem _ hx)) hmk'
    have hja : ((labels.set j (.Assigned cid)).getD j .Undefined).isAssigned = true := by
      rw [getD_set_self _ _ _ _ hj']
      rfl
    have hmonoA : ∀ i, (labels.getD i .Undefined).isAssigned = true →
        ((labels.set j (.Assigned cid)).getD i .Undefined).isAssigned = true := by
      intro i hi
      by_cases hij : j = i
      · subst hij; exact hja
      · rw [getD_set_ne _ _ _ _ _ hij]; exact hi
    refine ⟨labels2, ?_, h1, h2, ?_, ?_, ?_⟩
    · rw [expandCluster_cons, if_neg hj, if_neg ha, if_pos ho]
      exact heq
    · intro x hx
      rcases List.mem_cons.mp hx with h | h
      · subst h
        exact h4 x hja
      · exact h3 x h
    · intro i hi
      exact h4 i (hmonoA i hi)
    · intro i hi
      refine h5 i ?_
      by_cases hij : j = i
      · subst hij; exact Or.inl hja
      · rw [getD_set_ne _ _ _ _ _ hij]; exact hi
  | case5 j rest labels hj ha ho labels1 point secondary hsec ih =>
    intro hlen hqN hmk
    have hsec' : (secondaryOf dataset measure rTest epsilon tree j).length < minPoints := hsec
    have hj' : j < labels.length := lt_of_not_le hj
    have hlen' : (labels.set j (.Assigned cid)).length = dataset.length := by
      rw [List.length_set]; exact hlen
    have hmk' : ∀ i, (labels.set j (.Assigned cid)).getD i .Undefined = .Marked →
        i ∈ rest := by
      intro i hi
      by_cases hij : j = i
      · subst hij
        rw [getD_set_self _ _ _ _ hj'] at hi
        exact Label.noConfusion hi
      · rw [getD_set_ne _ _ _ _ _ hij] at hi
        rcases List.mem_cons.mp (hmk i hi) with h | h
        · exact absurd h.symm hij
        · exact h
    obtain ⟨labels2, heq, h1, h2, h3, h4, h5⟩ :=
      ih hlen' (fun x hx => hqN x (List.mem_cons_of_mem _ hx)) hmk'
    have hja : ((labels.set j (.Assigned cid)).getD j .Undefined).isAssigned = true := by
      rw [getD_set_self _ _ _ _ hj']
      rfl
    refine ⟨labels2, ?_, h1, h2, ?_, ?_, ?_⟩
    · rw [expandCluster_cons, if_neg hj, if_neg ha, if_neg ho, if_pos hsec']
      exact heq
    · intro x hx
      rcases List.mem_cons.mp hx with h | h
      · subst h
        exact h4 x hja
      · exact h3 x h
    · intro i hi
      refine h4 i ?_
      by_cases hij : j = i
      · subst hij; exact hja
      · rw [getD_set_ne _ _ _ _ _ hij]; exact hi
    · intro i hi
      refine h5 i ?_
      by_cases hij : j = i
      · subst hij; exact Or.inl hja
      · rw [getD_set_ne _ _ _ _ _ hij]; exact hi
  | case6 j rest labels hj ha ho labels1 point secondary hsec st ih =>
    intro hlen hqN hmk
    have hj' : j < labels.length := lt_of_not_le hj
    have hsec' : ¬ (secondaryOf dataset measure rTest epsilon tree j).length < minPoints :=
      hsec
    have hstm : st = ((secondaryOf dataset measure rTest epsilon tree j).map
        (·.index)).foldl enqueueSecondary (labels.set j (.Assigned cid), rest) := rfl
    have hlen' : st.1.length = dataset.length := by
      rw [hstm, length_foldl_enqueue]
      simpa using hlen
    have hqN' : ∀ x ∈ st.2, x < dataset.length := by
      intro x hx
      rw [hstm] at hx
      rcases queue_mem_foldl_enqueue _ _ _ hx with h | h
      · exact hqN x (List.mem_cons_of_mem _ h)
      · rcases List.mem_map.mp h with ⟨nb, hnb, rfl⟩
        exact secondaryOf_index_lt dataset measure rTest epsilon tree j htree nb hnb
    have hbase : ∀ i, (labels.set j (.Assigned cid)).getD i .Undefined = .Marked →
        i ∈ rest := by
      intro i hi
      by_cases hij : j = i
      · subst hij
        rw [getD_set_self _ _ _ _ hj'] at hi
        exact Label.noConfusion hi
      · rw [getD_set_ne _ _ _ _ _ hij] at hi
        rcases List.mem_cons.mp (hmk i hi) with h | h
        · exact absurd h.symm hij
        · exact h
    have hmk' : ∀ i, st.1.getD i .Undefined = .Marked → i ∈ st.2 := by
      rw [hstm]
      exact marked_foldl_enqueue _ _ hbase
    obtain ⟨labels2, heq, h1, h2, h3, h4, h5⟩ := ih hlen' hqN' hmk'
    have hja : ((labels.set j (.Assigned cid)).getD j .Undefined).isAssigned = true := by
      rw [getD_set_self _ _ _ _ hj']
      rfl
    have hfoldA : ∀ i, ((labels.set j (.Assigned cid)).getD i .Undefined).isAssigned = true →
        (st.1.getD i .Undefined).isAssigned = true := by
      intro i hi
      rw [hstm]
      rcases label_foldl_enqueue ((secondaryOf dataset measure rTest epsilon tree j).map
          (·.index)) (labels.set j (.Assigned cid), rest) i with he | ⟨he1, _⟩
      · rw [he]; exact hi
      · rw [he1] at hi
        exact absurd hi (by decide)
    refine ⟨labels2, ?_, h1, h2, ?_, ?_, ?_⟩
    · rw [expandCluster_cons, if_neg hj, if_neg ha, if_neg ho, if_neg hsec']
      exact heq
    · intro x hx
      rcases List.mem_cons.mp hx with h | h
      · subst h
        exact h4 x (hfoldA x hja)
      · refine h3 x ?_
        rw [hstm]
        exact queue_sub_foldl_enqueue _ _ h
    · intro i hi
      refine h4 i (hfoldA i ?_)
      by_cases hij : j = i
      · subst hij; exact hja
      · rw [getD_set_ne _ _ _ _ _ hij]; exact hi
    · intro i hi
      have hi1 : ((labels.set j (.Assigned cid)).getD i .Undefined).isAssigned = true ∨
          ((labels.set j (.Assigned cid)).getD i .Undefined).isOutlier = true := by
        by_cases hij : j = i
        · subst hij; exact Or.inl hja
        · rw [getD_set_ne _ _ _ _ _ hij]; exact hi
      refine h5 i ?_
      rw [hstm]
      rcases label_foldl_enqueue ((secondaryOf dataset measure rTest epsilon tree j).map
          (·.index)) (labels.set j (.Assigned cid), rest) i with he | ⟨he1, _⟩
      · rw [he]; exact hi1
      · rw [he1] at hi1
        rcases hi1 with h | h
        · exact absurd h (by decide)
        · exact absurd h (by decide)

theorem length_foldl_setMarked (xs : List NeighborQ) (labels : List Label) :
    (xs.foldl (fun ls nb => ls.set nb.index .Marked) labels).length = labels.length := by
  induction xs generalizing labels with
  | nil => rfl
  | cons nb rest ih => rw [List.foldl_cons, ih, List.length_set]

theorem getD_foldl_setMarked_not_mem (xs : List NeighborQ) (labels : List Label) (i : ℕ)
    (h : i ∉ xs.map (fun nb => nb.index)) :
    (xs.foldl (fun ls nb => ls.set nb.index .Marked) labels).getD i .Undefined =
      labels.getD i .Undefined := by
  induction xs generalizing labels with
  | nil => rfl
  | cons nb rest ih =>
    rw [List.foldl_cons]
    have hne : nb.index ≠ i := by
      intro hc
      exact h (by rw [← hc]; exact List.mem_map_of_mem _ (List.mem_cons_self _ _))
    have hrest : i ∉ rest.map (fun nb => nb.index) := by
      intro hc
      rcases List.mem_map.mp hc with ⟨y, hy, hyi⟩
      exact h (List.mem_map.mpr ⟨y, List.mem_cons_of_mem _ hy, hyi⟩)
    rw [ih _ hrest]
    exact getD_set_ne _ _ _ _ _ hne

theorem getD_foldl_setMarked_mem (xs : List NeighborQ) (labels : List Label) (i : ℕ)
    (h : i ∈ xs.map (fun nb => nb.index)) (hlt : i < labels.length) :
    (xs.foldl (fun ls nb => ls.set nb.index .Marked) labels).getD i .Undefined =
      .Marked := by
  induction xs generalizing labels with
  | nil => simp at h
  | cons nb rest ih =>
    rw [List.foldl_cons]
    by_cases hr : i ∈ rest.map (fun nb => nb.index)
    · exact ih _ hr (by rw [List.length_set]; exact hlt)
    · have hi : nb.index = i := by
        rcases List.mem_map.mp h with ⟨y, hy, hyi⟩
        rcases List.mem_cons.mp hy with hy | hy
        · subst hy; exact hyi
        · exact absurd (List.mem_map.mpr ⟨y, hy, hyi⟩) hr
      rw [getD_foldl_setMarked_not_mem rest _ i hr, hi]
      exact getD_set_self _ _ _ _ hlt

/-- Unfolding equation for the `DBSCAN::fit` main loop at a nonempty
index list. -/
theorem fitLoop_cons (dataset : List (List ℚ)) (minPoints : ℕ) (epsilon : ℚ)
    (measure : List ℚ → List ℚ → ℚ) (rTest : ℚ → Bool) (tree : KdTree)
    (i : ℕ) (rest : List ℕ) (labels : List Label) (cid : ℕ) :
    fitLoop dataset minPoints epsilon measure rTest tree (i :: rest) labels cid =
      if ¬ (labels.getD i .Undefined).isUndefined then
        fitLoop dataset minPoints epsilon measure rTest tree rest labels cid
      else if (secondaryOf dataset measure rTest epsilon tree i).length < minPoints then
        fitLoop dataset minPoints epsilon measure rTest tree rest
          (labels.set i .Outlier) cid
      else
        match expandCluster cid dataset minPoints epsilon measure rTest tree
          ((secondaryOf dataset measure rTest epsilon tree i).map (·.index))
          ((secondaryOf dataset measure rTest epsilon tree i).foldl
            (fun ls nb => ls.set nb.index .Marked) labels) with
        | none => none
        | some labels2 =>
          fitLoop dataset minPoints epsilon measure rTest tree rest labels2 (cid + 1) := by
  rw [fitLoop]
  rfl

/-- Invariant of the `DBSCAN::fit` main loop: processing in-range
indices over a `Marked`-free label array whose already-processed
entries are assigned or outliers yields a `Marked`-free array that is
everywhere assigned or outlier. -/
theorem fitLoop_spec (dataset : List (List ℚ)) (minPoints : ℕ) (epsilon : ℚ)
    (measure : List ℚ → List ℚ → ℚ) (rTest : ℚ → Bool) (tree : KdTree)
    (htree : ∀ x ∈ treeIndices tree, x < dataset.length)
    (hself : ∀ i, i < dataset.length →
      i ∈ (secondaryOf dataset measure rTest epsilon tree i).map (fun nb => nb.index)) :
    ∀ (remaining : List ℕ) (labels : List Label) (cid : ℕ),
      labels.length = dataset.length →
      (∀ x ∈ remaining, x < dataset.length) →
      (∀ i, labels.getD i .Undefined ≠ .Marked) →
      (∀ i, i < dataset.length → i ∉ remaining →
        ((labels.getD i .Undefined).isAssigned = true ∨
         (labels.getD i .Undefined).isOutlier = true)) →
      ∃ labels2,
        fitLoop dataset minPoints epsilon measure rTest tree remaining labels cid =
          some labels2 ∧
        labels2.length = dataset.length ∧
        (∀ i, i < dataset.length →
          ((labels2.getD i .Undefined).isAssigned = true ∨
           (labels2.getD i .Undefined).isOutlier = true)) := by
  intro remaining
  induction remaining with
  | nil =>
    intro labels cid hlen hqN hP2 hP3
    exact ⟨labels, by rw [fitLoop], hlen,
      fun i hi => hP3 i hi (List.not_mem_nil i)⟩
  | cons i rest ih =>
    intro labels cid hlen hqN hP2 hP3
    have hiN : i < dataset.length := hqN i (List.mem_cons_self _ _)
    have hilt : i < labels.length := by rw [hlen]; exact hiN
    by_cases hu : (labels.getD i .Undefined).isUndefined = true
    · -- the point is still `Undefined`
      by_cases hsec : (secondaryOf dataset measure rTest epsilon tree i).length < minPoints
      · -- too few neighbors: labelled `Outlier`
        have hP2' : ∀ i', (labels.set i .Outlier).getD i' .Undefined ≠ .Marked := by
          intro i' hi'
          by_cases hii : i = i'
          · subst hii
            rw [getD_set_self _ _ _ _ hilt] at hi'
            exact Label.noConfusion hi'
          · rw [getD_set_ne _ _ _ _ _ hii] at hi'
            exact hP2 i' hi'
        have hP3' : ∀ i', i' < dataset.length → i' ∉ rest →
            (((labels.set i .Outlier).getD i' .Undefined).isAssigned = true ∨
             ((labels.set i .Outlier).getD i' .Undefined).isOutlier = true) := by
          intro i' hi'N hi'
          by_cases hii : i = i'
          · subst hii
            rw [getD_set_self _ _ _ _ hilt]
            exact Or.inr rfl
          · rw [getD_set_ne _ _ _ _ _ hii]
            exact hP3 i' hi'N (fun hc => (List.mem_cons.mp hc).elim
              (fun h => hii h.symm) hi')
        obtain ⟨labels2, heq, h1, h2⟩ := ih (labels.set i .Outlier) cid
          (by rw [List.length_set]; exact hlen)
          (fun x hx => hqN x (List.mem_cons_of_mem _ hx)) hP2' hP3'
        refine ⟨labels2, ?_, h1, h2⟩
        rw [fitLoop_cons, if_neg (by simpa using hu), if_pos hsec]
        exact heq
      · -- enough neighbors: mark them all and expand a new cluster
        have hmk1 : ∀ i', ((secondaryOf dataset measure rTest epsilon tree i).foldl
            (fun ls nb => ls.set nb.index .Marked) labels).getD i' .Undefined = .Marked →
            i' ∈ (secondaryOf dataset measure rTest epsilon tree i).map
              (fun nb => nb.index) := by
          intro i' hi'
          by_cases hm : i' ∈ (secondaryOf dataset measure rTest epsilon tree i).map
              (fun nb => nb.index)
          · exact hm
          · rw [getD_foldl_setMarked_not_mem _ _ _ hm] at hi'
            exact absurd hi' (hP2 i')
        obtain ⟨labelsE, heqE, hE1, hE2, hE3, hE4, hE5⟩ :=
          expandCluster_spec cid dataset minPoints epsilon measure rTest tree htree
            ((secondaryOf dataset measure rTest epsilon tree i).map (·.index))
            ((secondaryOf dataset measure rTest epsilon tree i).foldl
              (fun ls nb => ls.set nb.index .Marked) labels)
            (by rw [length_foldl_setMarked]; exact hlen)
            (by
              intro x hx
              rcases List.mem_map.mp hx with ⟨nb, hnb, rfl⟩
              exact secondaryOf_index_lt dataset measure rTest epsilon tree i htree nb hnb)
            hmk1
        have hP3'' : ∀ i', i' < dataset.length → i' ∉ rest →
            ((labelsE.getD i' .Undefined).isAssigned = true ∨
             (labelsE.getD i' .Undefined).isOutlier = true) := by
          intro i' hi'N hi'
          by_cases hm : i' ∈ (secondaryOf dataset measure rTest epsilon tree i).map
              (fun nb => nb.index)
          · exact Or.inl (hE3 i' hm)
          · by_cases hii : i = i'
            · subst hii
              exact absurd (hself i hiN) hm
            · refine hE5 i' ?_
              rw [getD_foldl_setMarked_not_mem _ _ _ hm]
              exact hP3 i' hi'N (fun hc => (List.mem_cons.mp hc).elim
                (fun h => hii h.symm) hi')
        obtain ⟨labels2, heq, h1, h2⟩ := ih labelsE (cid + 1) hE1
          (fun x hx => hqN x (List.mem_cons_of_mem _ hx)) hE2 hP3''
        refine ⟨labels2, ?_, h1, h2⟩
        rw [fitLoop_cons, if_neg (by simpa using hu), if_neg hsec, heqE]
        exact heq
    · -- already labelled: skipped; by the `Marked`-freeness it is
      -- assigned or an outlier
      have hAO : (labels.getD i .Undefined).isAssigned = true ∨
          (labels.getD i .Undefined).isOutlier = true := by
        cases hl : labels.getD i .Undefined with
        | Assigned c => exact Or.inl rfl
        | Outlier => exact Or.inr rfl
        | Marked => exact absurd hl (hP2 i)
        | Undefined => exact absurd (by rw [hl]; rfl) hu
      have hP3' : ∀ i', i' < dataset.length → i' ∉ rest →
          ((labels.getD i' .Undefined).isAssigned = true ∨
           (labels.getD i' .Undefined).isOutlier = true) := by
        intro i' hi'N hi'
        by_cases hii : i = i'
        · subst hii; exact hAO
        · exact hP3 i' hi'N (fun hc => (List.mem_cons.mp hc).elim
            (fun h => hii h.symm) hi')
      obtain ⟨labels2, heq, h1, h2⟩ := ih labels cid hlen
        (fun x hx => hqN x (List.mem_cons_of_mem _ hx)) hP2 hP3'
      refine ⟨labels2, ?_, h1, h2⟩
      rw [fitLoop_cons, if_pos (by simpa using hu)]
      exact heq

theorem getD_replicate_undef (n i : ℕ) :
    (List.replicate n Label.Undefined).getD i .Undefined = .Undefined := by
  by_cases h : i < n
  · rw [List.getD_eq_getElem _ _ (by simpa using h), List.getElem_replicate]
  · rw [List.getD_eq_default]
    simpa using le_of_not_lt h

/-- `DBSCAN::fit` on the squared euclidean embedding always terminates
with a full label array in which every point is assigned or an
outlier, provided the radius test accepts distance zero (`ε ≥ 0` in
both source instantiations). -/
theorem fitLabels_partition (dataset : List (List ℚ)) (minPoints : ℕ)
    (epsilon : ℚ) (rTest : ℚ → Bool) (dim : ℕ) (h0 : 0 < dim)
    (hdims : ∀ p ∈ dataset, p.length = dim) (hε : 0 ≤ epsilon)
    (hr0 : rTest 0 = true) :
    ∃ labels, fitLabels dataset minPoints epsilon sqEuclid rTest = some labels ∧
      labels.length = dataset.length ∧
      (∀ i, i < dataset.length →
        ((labels.getD i .Undefined).isAssigned = true ∨
         (labels.getD i .Undefined).isOutlier = true)) := by
  by_cases hds : dataset = []
  · subst hds
    refine ⟨[], by rw [fitLabels]; rfl, rfl, ?_⟩
    intro i hi
    simp at hi
  · have hhead : (dataset.headD []).length = dim := by
      cases dataset with
      | nil => exact absurd rfl hds
      | cons a t => exact hdims a (List.mem_cons_self _ _)
    have htperm := treeIndices_buildNode dataset hds (List.range dataset.length) 0
    have hbt := boundedTree_buildNode dataset hds dim hhead h0 (List.range dataset.length) 0
    have htree : ∀ x ∈ treeIndices (buildNode dataset (List.range dataset.length) 0),
        x < dataset.length := by
      intro x hx
      exact List.mem_range.mp (htperm.mem_iff.mp hx)
    have hself : ∀ i, i < dataset.length →
        i ∈ (secondaryOf dataset sqEuclid rTest epsilon
          (buildNode dataset (List.range dataset.length) 0) i).map
          (fun nb => nb.index) := by
      intro i hiN
      have hrt : rTest (sqEuclid (dataset.getD i []) (dataset.getD i [])) = true := by
        rw [sqEuclid_self]; exact hr0
      have hmem : i ∈ treeIndices (buildNode dataset (List.range dataset.length) 0) :=
        htperm.mem_iff.mpr (List.mem_range.mpr hiN)
      have hin := searchRadiusRec_self dataset sqEuclid rTest epsilon dim i hε hrt
        hbt hmem []
      unfold secondaryOf
      rw [if_neg (not_lt.mpr hε)]
      rw [List.map_map]
      exact List.mem_map.mpr ⟨_, hin, rfl⟩
    obtain ⟨labels2, heq, h1, h2⟩ := fitLoop_spec dataset minPoints epsilon sqEuclid
      rTest (buildNode dataset (List.range dataset.length) 0) htree hself
      (List.range dataset.length) (List.replicate dataset.length .Undefined) 0
      (by rw [List.length_replicate])
      (fun x hx => List.mem_range.mp hx)
      (fun i => by rw [getD_replicate_undef]; exact fun h => Label.noConfusion h)
      (fun i hiN hi => absurd (List.mem_range.mpr hiN) hi)
    refine ⟨labels2, ?_, h1, h2⟩
    rw [fitLabels, if_neg (by simpa [List.isEmpty_iff] using hds)]
    exact heq

theorem expandCluster_length (cid : ℕ) (dataset : List (List ℚ)) (minPoints : ℕ)
    (epsilon : ℚ) (measure : List ℚ → List ℚ → ℚ) (rTest : ℚ → Bool)
    (tree : KdTree) :
    ∀ (queue : List ℕ) (labels : List Label) (labels2 : List Label),
      expandCluster cid dataset minPoints epsilon measure rTest tree queue labels =
        some labels2 → labels2.length = labels.length := by
  intro queue labels
  induction queue, labels using expandCluster.induct cid dataset minPoints epsilon measure rTest tree with
  | case1 labels =>
    intro labels2 heq
    rw [expandCluster] at heq
    cases heq
    rfl
  | case2 j rest labels hj =>
    intro labels2 heq
    rw [expandCluster_cons, if_pos hj] at heq
    cases heq
  | case3 j rest labels hj ha ih =>
    intro labels2 heq
    rw [expandCluster_cons, if_neg hj, if_pos ha] at heq
    exact ih labels2 heq
  | case4 j rest labels hj ha ho ih =>
    intro labels2 heq
    rw [expandCluster_cons, if_neg hj, if_neg ha, if_pos ho] at heq
    rw [ih labels2 heq, List.length_set]
  | case5 j rest labels hj ha ho labels1 point secondary hsec ih =>
    intro labels2 heq
    have hsec' : (secondaryOf dataset measure rTest epsilon tree j).length < minPoints :=
      hsec
    rw [expandCluster_cons, if_neg hj, if_neg ha, if_neg ho, if_pos hsec'] at heq
    rw [ih labels2 heq, List.length_set]
  | case6 j rest labels hj ha ho labels1 point secondary hsec st ih =>
    intro labels2 heq
    have hsec' : ¬ (secondaryOf dataset measure rTest epsilon tree j).length < minPoints :=
      hsec
    rw [expandCluster_cons, if_neg hj, if_neg ha, if_neg ho, if_neg hsec'] at heq
    rw [ih labels2 heq]
    rw [show st = ((secondaryOf dataset measure rTest epsilon tree j).map
      (·.index)).foldl enqueueSecondary (labels.set j (.Assigned cid), rest) from rfl,
      length_foldl_enqueue, List.length_set]

theorem fitLoop_length (dataset : List (List ℚ)) (minPoints : ℕ) (epsilon : ℚ)
    (measure : List ℚ → List ℚ → ℚ) (rTest : ℚ → Bool) (tree : KdTree) :
    ∀ (remaining : List ℕ) (labels : List Label) (cid : ℕ) (labels2 : List Label),
      fitLoop dataset minPoints epsilon measure rTest tree remaining labels cid =
        some labels2 → labels2.length = labels.length := by
  intro remaining
  induction remaining with
  | nil =>
    intro labels cid labels2 heq
    rw [fitLoop] at heq
    cases heq
    rfl
  | cons i rest ih =>
    intro labels cid labels2 heq
    rw [fitLoop_cons] at heq
    split at heq
    · exact ih labels cid labels2 heq
    · split at heq
      · rw [ih _ cid labels2 heq, List.length_set]
      · split at heq
        · cases heq
        · rename_i labelsE heqE
          rw [ih labelsE (cid + 1) labels2 heq,
            expandCluster_length cid dataset minPoints epsilon measure rTest tree
              _ _ labelsE heqE,
            length_foldl_setMarked]

theorem fitLabels_length (dataset : List (List ℚ)) (minPoints : ℕ) (epsilon : ℚ)
    (measure : List ℚ → List ℚ → ℚ) (rTest : ℚ → Bool) (labels : List Label)
    (heq : fitLabels dataset minPoints epsilon measure rTest = some labels) :
    labels.length = dataset.length := by
  rw [fitLabels] at heq
  split at heq
  · rename_i hemp
    cases heq
    simp [List.isEmpty_iff] at hemp
    simp [hemp]
  · rw [fitLoop_length dataset minPoints epsilon measure rTest _ _ _ _ _ heq,
      List.length_replicate]

/-- Every feature point built from the byte buffer is 5-dimensional
with position coordinates `x/w ∈ [0, (w-1)/w]` and
`y/h ∈ [0, (h-1)/h]`. -/
theorem buildPixels_coords (ops : FloatOps) (w h : ℕ) :
    ∀ (bytes : List ℕ) (p : ℕ) (pixels : List (List ℚ)),
      buildPixels ops w h bytes p = some pixels →
      ∀ pt ∈ pixels, pt.length = 5 ∧
        (0 ≤ pt.getD 3 0 ∧ pt.getD 3 0 ≤ ((w : ℚ) - 1) / w) ∧
        (0 ≤ pt.getD 4 0 ∧ pt.getD 4 0 ≤ ((h : ℚ) - 1) / h) := by
  intro bytes p
  induction bytes, p using buildPixels.induct ops w h with
  | case1 p =>
    intro pixels heq pt hpt
    rw [buildPixels] at heq
    cases heq
    simp at hpt
  | case2 r g b a rest p hw =>
    intro pixels heq
    rw [buildPixels, if_pos hw] at heq
    cases heq
  | case3 r g b a rest p hw hh =>
    intro pixels heq
    rw [buildPixels, if_neg hw, if_pos hh] at heq
    cases heq
  | case4 r g b a rest p hw hh ih =>
    intro pixels heq pt hpt
    rw [buildPixels, if_neg hw, if_neg hh] at heq
    rcases Option.map_eq_some'.mp heq with ⟨pixels', hrec, hcons⟩
    subst hcons
    rcases List.mem_cons.mp hpt with hpt | hpt
    · subst hpt
      have hwpos : (0 : ℚ) < (w : ℚ) := by
        exact_mod_cast Nat.pos_of_ne_zero hw
      have hhpos : (0 : ℚ) < (h : ℚ) := by
        exact_mod_cast Nat.pos_of_ne_zero hh
      refine ⟨rfl, ⟨?_, ?_⟩, ⟨?_, ?_⟩⟩
      · exact div_nonneg (by positivity) (le_of_lt hwpos)
      · show ((p % w : ℕ) : ℚ) / (w : ℚ) ≤ ((w : ℚ) - 1) / w
        have hlt : p % w < w := Nat.mod_lt _ (Nat.pos_of_ne_zero hw)
        have hle : ((p % w : ℕ) : ℚ) ≤ (w : ℚ) - 1 := by
          have : (p % w : ℕ) + 1 ≤ w := hlt
          have := (Nat.cast_le (α := ℚ)).mpr this
          push_cast at this
          linarith
        gcongr
      · exact div_nonneg (by positivity) (le_of_lt hhpos)
      · show (((p / w) % h : ℕ) : ℚ) / (h : ℚ) ≤ ((h : ℚ) - 1) / h
        have hlt : (p / w) % h < h := Nat.mod_lt _ (Nat.pos_of_ne_zero hh)
        have hle : (((p / w) % h : ℕ) : ℚ) ≤ (h : ℚ) - 1 := by
          have : ((p / w) % h : ℕ) + 1 ≤ h := hlt
          have := (Nat.cast_le (α := ℚ)).mpr this
          push_cast at this
          linarith
        gcongr
    · exact ih pixels' hrec pt hpt
  | case5 t x h1 h2 =>
    intro pixels heq
    exfalso
    rcases t with _ | ⟨b0, _ | ⟨b1, _ | ⟨b2, _ | ⟨b3, trest⟩⟩⟩⟩
    · exact h1 rfl
    · simp [buildPixels] at heq
    · simp [buildPixels] at heq
    · simp [buildPixels] at heq
    · exact h2 _ _ _ _ _ rfl

theorem rat_floor_le (q : ℚ) : (q.floor : ℚ) ≤ q :=
  Rat.le_floor.mp (le_refl _)

/-- Truncation of a value of `[0, w)` lands in `{0, …, w−1}`. -/
theorem toU32_lt (v : ℚ) (n wb : ℕ) (hwb : 0 < wb) (hv : v < (wb : ℚ))
    (h : toU32 v = some n) : n < wb := by
  unfold toU32 at h
  split at h
  · rename_i hc
    cases h
    have h1 : (v.floor : ℚ) ≤ v := rat_floor_le v
    have h2 : (v.floor : ℚ) < (wb : ℚ) := lt_of_le_of_lt h1 hv
    have h3 : v.floor < (wb : ℤ) := by exact_mod_cast h2
    omega
  · cases h

theorem getD_ptAdd (a b : List ℚ) (k : ℕ) (ha : k < a.length) (hb : k < b.length) :
    (ptAdd a b).getD k 0 = a.getD k 0 + b.getD k 0 := by
  unfold ptAdd
  have hk : k < (List.zipWith (· + ·) a b).length := by
    rw [List.length_zipWith]; omega
  rw [List.getD_eq_getElem _ _ hk, List.getElem_zipWith,
    List.getD_eq_getElem _ _ ha, List.getD_eq_getElem _ _ hb]

theorem length_ptAdd (a b : List ℚ) : (ptAdd a b).length = min a.length b.length :=
  List.length_zipWith ..

/-- Bound for the centroid numerator: folding `add_assign` over member
points with `k`-th coordinate in `[0, B]` keeps the sum within
`[acc, acc + count·B]`. -/
theorem foldl_ptAdd_bound (dataset : List (List ℚ)) (B : ℚ) (k : ℕ) (hk : k < 5)
    (ms : List ℕ)
    (hpts : ∀ i ∈ ms, (dataset.getD i []).length = 5 ∧
      0 ≤ (dataset.getD i []).getD k 0 ∧ (dataset.getD i []).getD k 0 ≤ B) :
    ∀ acc : List ℚ, acc.length = 5 →
      (ms.foldl (fun acc i => ptAdd acc (dataset.getD i [])) acc).length = 5 ∧
      (ms.foldl (fun acc i => ptAdd acc (dataset.getD i [])) acc).getD k 0 ≤
        acc.getD k 0 + (ms.length : ℚ) * B ∧
      acc.getD k 0 ≤ (ms.foldl (fun acc i => ptAdd acc (dataset.getD i [])) acc).getD k 0 := by
  induction ms with
  | nil =>
    intro acc hacc
    refine ⟨hacc, ?_, le_refl _⟩
    simp
  | cons i ms ih =>
    intro acc hacc
    obtain ⟨hlen_i, hge_i, hle_i⟩ := hpts i (List.mem_cons_self _ _)
    have hpts' : ∀ j ∈ ms, (dataset.getD j []).length = 5 ∧
        0 ≤ (dataset.getD j []).getD k 0 ∧ (dataset.getD j []).getD k 0 ≤ B :=
      fun j hj => hpts j (List.mem_cons_of_mem _ hj)
    have hlen' : (ptAdd acc (dataset.getD i [])).length = 5 := by
      rw [length_ptAdd, hacc, hlen_i]
      omega
    have hgetD : (ptAdd acc (dataset.getD i [])).getD k 0 =
        acc.getD k 0 + (dataset.getD i []).getD k 0 :=
      getD_ptAdd _ _ _ (by omega) (by omega)
    obtain ⟨h1, h2, h3⟩ := ih hpts' (ptAdd acc (dataset.getD i [])) hlen'
    rw [List.foldl_cons]
    refine ⟨h1, ?_, ?_⟩
    · refine le_trans h2 ?_
      rw [hgetD]
      have hcast : ((ms.length + 1 : ℕ) : ℚ) = (ms.length : ℚ) + 1 := by push_cast; ring
      rw [List.length_cons, hcast]
      linarith
    · refine le_trans ?_ h3
      rw [hgetD]
      linarith

theorem mem_membershipAt_iff (labels : List Label) (c i : ℕ) :
    i ∈ membershipAt labels c ↔
      (i < labels.length ∧ labels.getD i .Undefined = .Assigned c) := by
  unfold membershipAt
  rw [List.mem_filter, List.mem_range]
  constructor
  · rintro ⟨h1, h2⟩
    exact ⟨h1, by simpa using h2⟩
  · rintro ⟨h1, h2⟩
    exact ⟨h1, by simpa using h2⟩

/-- Each coordinate of a DBSCAN centroid is a mean of member-point
coordinates, hence lies in the same interval `[0, B]`. -/
theorem centroidAt_coord_bound (pixels : List (List ℚ)) (labels : List Label)
    (c k : ℕ) (B : ℚ) (hB : 0 ≤ B) (hk : k < 5)
    (hlab : labels.length = pixels.length)
    (hpts : ∀ pt ∈ pixels, pt.length = 5 ∧ 0 ≤ pt.getD k 0 ∧ pt.getD k 0 ≤ B) :
    0 ≤ (centroidAt pixels labels c).getD k 0 ∧
      (centroidAt pixels labels c).getD k 0 ≤ B := by
  by_cases hms : membershipAt labels c = []
  · have hcen : centroidAt pixels labels c =
        ptDiv (List.replicate (pixels.headD []).length 0)
          ((countAt labels c : ℕ) : ℚ) := by
      simp only [centroidAt, hms, List.foldl_nil]
    rw [hcen]
    unfold ptDiv
    rw [List.map_replicate, zero_div]
    by_cases hkd : k < (pixels.headD []).length
    · rw [List.getD_eq_getElem _ _ (by simpa using hkd), List.getElem_replicate]
      exact ⟨le_refl _, hB⟩
    · rw [List.getD_eq_default _ _ (by simpa using le_of_not_lt hkd)]
      exact ⟨le_refl _, hB⟩
  · have hmem : ∀ i ∈ membershipAt labels c, i < pixels.length := by
      intro i hi
      have := (mem_membershipAt_iff labels c i).mp hi
      omega
    have hne : pixels ≠ [] := by
      rcases List.exists_mem_of_ne_nil _ hms with ⟨i, hi⟩
      have := hmem i hi
      intro hc
      rw [hc] at this
      simp at this
    have hdim : (pixels.headD []).length = 5 := by
      cases pixels with
      | nil => exact absurd rfl hne
      | cons q t => exact (hpts q (List.mem_cons_self _ _)).1
    have hpts' : ∀ i ∈ membershipAt labels c, (pixels.getD i []).length = 5 ∧
        0 ≤ (pixels.getD i []).getD k 0 ∧ (pixels.getD i []).getD k 0 ≤ B := by
      intro i hi
      have hilt := hmem i hi
      rw [List.getD_eq_getElem _ _ hilt]
      exact hpts _ (List.getElem_mem hilt)
    obtain ⟨hS1, hS2, hS3⟩ := foldl_ptAdd_bound pixels B k hk
      (membershipAt labels c) hpts' (List.replicate 5 0) (by simp)
    have hcnt : (0 : ℚ) < ((countAt labels c : ℕ) : ℚ) := by
      have : 0 < (membershipAt labels c).length := List.length_pos.mpr hms
      unfold countAt
      exact_mod_cast this
    have hcen : centroidAt pixels labels c =
        ptDiv ((membershipAt labels c).foldl
          (fun acc i => ptAdd acc (pixels.getD i [])) (List.replicate 5 0))
          ((countAt labels c : ℕ) : ℚ) := by
      simp only [centroidAt, hdim]
    rw [hcen]
    unfold ptDiv
    have hk5 : k < ((membershipAt labels c).foldl
        (fun acc i => ptAdd acc (pixels.getD i [])) (List.replicate 5 0)).length := by
      rw [hS1]; exact hk
    rw [List.getD_eq_getElem _ _ (by simpa using hk5), List.getElem_map]
    have hacc0 : (List.replicate 5 (0 : ℚ)).getD k 0 = 0 := by
      rw [List.getD_eq_getElem _ _ (by simpa using hk), List.getElem_replicate]
    rw [hacc0] at hS2 hS3
    have hSe : ((membershipAt labels c).foldl
        (fun acc i => ptAdd acc (pixels.getD i [])) (List.replicate 5 0))[k] =
        ((membershipAt labels c).foldl
        (fun acc i => ptAdd acc (pixels.getD i [])) (List.replicate 5 0)).getD k 0 := by
      rw [List.getD_eq_getElem _ _ hk5]
    rw [hSe]
    constructor
    · exact div_nonneg hS3 (le_of_lt hcnt)
    · rw [div_le_iff₀ hcnt]
      unfold countAt at hcnt ⊢
      calc ((membershipAt labels c).foldl
            (fun acc i => ptAdd acc (pixels.getD i [])) (List.replicate 5 0)).getD k 0
          ≤ 0 + ((membershipAt labels c).length : ℚ) * B := hS2
        _ = B * ((membershipAt labels c).length : ℚ) := by ring

/-- A successfully built swatch has its position inside the image: both
centroid position coordinates are means of in-range values, and
truncation cannot reach `w` (resp. `h`). -/
theorem swatchAt_position (ops : FloatOps) (pixels : List (List ℚ))
    (labels : List Label) (w h : ℕ) (perm : List ℕ) (e : ℕ) (sw : SwatchQ)
    (hw : w ≠ 0) (hh : h ≠ 0) (hlab : labels.length = pixels.length)
    (hpts : ∀ pt ∈ pixels, pt.length = 5 ∧
      (0 ≤ pt.getD 3 0 ∧ pt.getD 3 0 ≤ ((w : ℚ) - 1) / w) ∧
      (0 ≤ pt.getD 4 0 ∧ pt.getD 4 0 ≤ ((h : ℚ) - 1) / h))
    (heq : swatchAt ops pixels labels w h perm e = some sw) :
    sw.position.1 < w ∧ sw.position.2 < h := by
  have hwpos : (0 : ℚ) < (w : ℚ) := by exact_mod_cast Nat.pos_of_ne_zero hw
  have hhpos : (0 : ℚ) < (h : ℚ) := by exact_mod_cast Nat.pos_of_ne_zero hh
  have hw1 : (1 : ℚ) ≤ (w : ℚ) := by exact_mod_cast Nat.one_le_iff_ne_zero.mpr hw
  have hh1 : (1 : ℚ) ≤ (h : ℚ) := by exact_mod_cast Nat.one_le_iff_ne_zero.mpr hh
  unfold swatchAt at heq
  rcases Option.bind_eq_some.mp heq with ⟨rgb, hrgb, heq2⟩
  rcases Option.bind_eq_some.mp heq2 with ⟨x, hx, heq3⟩
  rcases Option.bind_eq_some.mp heq3 with ⟨y, hy, heq4⟩
  injection heq4 with h4
  subst h4
  have hcx := centroidAt_coord_bound pixels labels (perm.getD e 0) 3 (((w : ℚ) - 1) / w)
    (div_nonneg (by linarith) (le_of_lt hwpos)) (by omega) hlab
    (fun pt hpt => ⟨(hpts pt hpt).1, (hpts pt hpt).2.1⟩)
  have hcy := centroidAt_coord_bound pixels labels (perm.getD e 0) 4 (((h : ℚ) - 1) / h)
    (div_nonneg (by linarith) (le_of_lt hhpos)) (by omega) hlab
    (fun pt hpt => ⟨(hpts pt hpt).1, (hpts pt hpt).2.2⟩)
  constructor
  · refine toU32_lt _ _ _ (Nat.pos_of_ne_zero hw) ?_ hx
    have : (centroidAt pixels labels (perm.getD e 0)).getD 3 0 * w ≤
        (((w : ℚ) - 1) / w) * w := by
      exact mul_le_mul_of_nonneg_right hcx.2 (le_of_lt hwpos)
    rw [div_mul_cancel₀ _ (ne_of_gt hwpos)] at this
    linarith
  · refine toU32_lt _ _ _ (Nat.pos_of_ne_zero hh) ?_ hy
    have : (centroidAt pixels labels (perm.getD e 0)).getD 4 0 * h ≤
        (((h : ℚ) - 1) / h) * h := by
      exact mul_le_mul_of_nonneg_right hcy.2 (le_of_lt hhpos)
    rw [div_mul_cancel₀ _ (ne_of_gt hhpos)] at this
    linarith

theorem swatchList_mem (ops : FloatOps) (pixels : List (List ℚ))
    (labels : List Label) (w h : ℕ) (perm : List ℕ) :
    ∀ (es : List ℕ) (sws : List SwatchQ),
      swatchList ops pixels labels w h perm es = some sws →
      ∀ s ∈ sws, ∃ e, swatchAt ops pixels labels w h perm e = some s := by
  intro es
  induction es with
  | nil =>
    intro sws heq s hs
    rw [swatchList] at heq
    cases heq
    simp at hs
  | cons e rest ih =>
    intro sws heq s hs
    rw [swatchList] at heq
    rcases Option.bind_eq_some.mp heq with ⟨s0, hs0, heq2⟩
    rcases Option.bind_eq_some.mp heq2 with ⟨tail, htail, heq3⟩
    cases heq3
    rcases List.mem_cons.mp hs with hc | hc
    · exact ⟨e, hc ▸ hs0⟩
    · exact ih tail htail s hc

/-- Every swatch returned by `extract` has an in-image position. -/
theorem extractModel_position (bytes : List ℕ) (w h : ℕ) (ops : FloatOps)
    (perm : List ℕ) (out : List SwatchQ)
    (hw : w ≠ 0) (hh : h ≠ 0)
    (heq : extractModel bytes w h ops perm = some out) :
    ∀ s ∈ out, s.position.1 < w ∧ s.position.2 < h := by
  unfold extractModel at heq
  rcases Option.bind_eq_some.mp heq with ⟨pixels, hpix, heq2⟩
  rcases Option.bind_eq_some.mp heq2 with ⟨labels, hfit, heq3⟩
  unfold swatchesOf at heq3
  rcases Option.bind_eq_some.mp heq3 with ⟨sws, hsws, hout⟩
  cases hout
  intro s hs
  have hs' : s ∈ sws := (List.mem_mergeSort).mp hs
  rcases swatchList_mem ops pixels labels w h perm _ _ hsws s hs' with ⟨e, hsw⟩
  have hlab : labels.length = pixels.length :=
    fitLabels_length _ _ _ _ _ _ hfit
  have hpts := buildPixels_coords ops w h bytes 0 pixels hpix
  exact swatchAt_position ops pixels labels w h perm e s hw hh hlab hpts hsw

theorem mem_outliersOf_iff (labels : List Label) (i : ℕ) :
    i ∈ outliersOf labels ↔
      (i < labels.length ∧ labels.getD i .Undefined = .Outlier) := by
  unfold outliersOf
  rw [List.mem_filter, List.mem_range]
  constructor
  · rintro ⟨h1, h2⟩
    exact ⟨h1, by simpa using h2⟩
  · rintro ⟨h1, h2⟩
    exact ⟨h1, by simpa using h2⟩

theorem isAssigned_exists {l : Label} (h : l.isAssigned = true) :
    ∃ c, l = .Assigned c := by
  cases l with
  | Assigned c => exact ⟨c, rfl⟩
  | Outlier => exact absurd h (by decide)
  | Marked => exact absurd h (by decide)
  | Undefined => exact absurd h (by decide)

/-- Feature-point construction succeeds on any byte buffer whose length
is a multiple of four — no comparison against `4·w·h` happens — and
yields one point per RGBA quadruple. -/
theorem buildPixels_length (ops : FloatOps) (w h : ℕ)
    (hw : w ≠ 0) (hh : h ≠ 0) :
    ∀ (bytes : List ℕ) (p : ℕ), 4 ∣ bytes.length →
      ∃ pixels, buildPixels ops w h bytes p = some pixels ∧
        pixels.length = bytes.length / 4 := by
  intro bytes p
  induction bytes, p using buildPixels.induct ops w h with
  | case1 p =>
    intro hdvd
    exact ⟨[], by rw [buildPixels], rfl⟩
  | case2 r g b a rest p hw' => exact absurd hw' hw
  | case3 r g b a rest p hw' hh' => exact absurd hh' hh
  | case4 r g b a rest p hw' hh' ih =>
    intro hdvd
    have hdvd' : 4 ∣ rest.length := by
      rcases hdvd with ⟨k, hk⟩
      simp only [List.length_cons] at hk
      exact ⟨k - 1, by omega⟩
    obtain ⟨pixels', hrec, hlen⟩ := ih hdvd'
    refine ⟨([(Labc.fromXYZ ops (XYZc.fromRgba ops ⟨r, g, b, a⟩)).l / deltaL,
              (Labc.fromXYZ ops (XYZc.fromRgba ops ⟨r, g, b, a⟩)).a / deltaA,
              (Labc.fromXYZ ops (XYZc.fromRgba ops ⟨r, g, b, a⟩)).b / deltaB,
              ((p % w : ℕ) : ℚ) / (w : ℚ),
              (((p / w) % h : ℕ) : ℚ) / (h : ℚ)] :: pixels'), ?_, ?_⟩
    · rw [buildPixels, if_neg hw', if_neg hh', hrec]
      rfl
    · simp only [List.length_cons, hlen]
      omega
  | case5 t x h1 h2 =>
    intro hdvd
    exfalso
    rcases t with _ | ⟨b0, _ | ⟨b1, _ | ⟨b2, _ | ⟨b3, trest⟩⟩⟩⟩
    · exact h1 rfl
    · exact absurd hdvd (by decide : ¬ (4 : ℕ) ∣ 1)
    · exact absurd hdvd (by decide : ¬ (4 : ℕ) ∣ 2)
    · exact absurd hdvd (by decide : ¬ (4 : ℕ) ∣ 3)
    · exact h2 _ _ _ _ _ rfl

/-- `impl From<&XYZ> for Rgba` as a single equation: each channel is
rounded and cast with `to_u8().expect(..)` — there is no clamp, so the
conversion returns `none` (the source panics) as soon as one rounded
channel leaves `[0, 255]`, and otherwise uses the rounded values as
they are. -/
theorem fromXYZ_eq_toU8 (ops : FloatOps) (c : XYZc) :
    Rgbac.fromXYZ ops c =
      if (0 ≤ rustRound (rgbaGamma ops (rgbaLinR c) * 255) ∧
            rustRound (rgbaGamma ops (rgbaLinR c) * 255) ≤ 255) ∧
         (0 ≤ rustRound (rgbaGamma ops (rgbaLinG c) * 255) ∧
            rustRound (rgbaGamma ops (rgbaLinG c) * 255) ≤ 255) ∧
         (0 ≤ rustRound (rgbaGamma ops (rgbaLinB c) * 255) ∧
            rustRound (rgbaGamma ops (rgbaLinB c) * 255) ≤ 255) then
        some ⟨(rustRound (rgbaGamma ops (rgbaLinR c) * 255)).toNat,
              (rustRound (rgbaGamma ops (rgbaLinG c) * 255)).toNat,
              (rustRound (rgbaGamma ops (rgbaLinB c) * 255)).toNat, 255⟩
      else none := by
  simp only [Rgbac.fromXYZ, toU8]
  by_cases h1 : 0 ≤ rustRound (rgbaGamma ops (rgbaLinR c) * 255) ∧
      rustRound (rgbaGamma ops (rgbaLinR c) * 255) ≤ 255
  · rw [if_pos h1]
    by_cases h2 : 0 ≤ rustRound (rgbaGamma ops (rgbaLinG c) * 255) ∧
        rustRound (rgbaGamma ops (rgbaLinG c) * 255) ≤ 255
    · rw [if_pos h2]
      by_cases h3 : 0 ≤ rustRound (rgbaGamma ops (rgbaLinB c) * 255) ∧
          rustRound (rgbaGamma ops (rgbaLinB c) * 255) ≤ 255
      · rw [if_pos h3, if_pos ⟨h1, h2, h3⟩]
        rfl
      · rw [if_neg h3, if_neg (by tauto)]
        rfl
    · rw [if_neg h2, if_neg (show ¬((0 ≤ rustRound (rgbaGamma ops (rgbaLinR c) * 255) ∧
            rustRound (rgbaGamma ops (rgbaLinR c) * 255) ≤ 255) ∧
          (0 ≤ rustRound (rgbaGamma ops (rgbaLinG c) * 255) ∧
            rustRound (rgbaGamma ops (rgbaLinG c) * 255) ≤ 255) ∧
          (0 ≤ rustRound (rgbaGamma ops (rgbaLinB c) * 255) ∧
            rustRound (rgbaGamma ops (rgbaLinB c) * 255) ≤ 255))
        from fun hc => h2 hc.2.1)]
      rfl
  · rw [if_neg h1, if_neg (show ¬((0 ≤ rustRound (rgbaGamma ops (rgbaLinR c) * 255) ∧
          rustRound (rgbaGamma ops (rgbaLinR c) * 255) ≤ 255) ∧
        (0 ≤ rustRound (rgbaGamma ops (rgbaLinG c) * 255) ∧
          rustRound (rgbaGamma ops (rgbaLinG c) * 255) ≤ 255) ∧
        (0 ≤ rustRound (rgbaGamma ops (rgbaLinB c) * 255) ∧
          rustRound (rgbaGamma ops (rgbaLinB c) * 255) ≤ 255))
      from fun hc => h1 hc.1)]
    rfl

/-- The C5 counterexample dataset (2-D points). -/
def ds5 : List (List ℚ) :=
  [[-100, 0], [-90, 50], [-110, 10], [0, 1], [10, 4], [15, -50], [20, 3]]

/-- The C6 counterexample dataset (2-D points). -/
def ds6 : List (List ℚ) := [[0, 0], [3/4, 10], [4/5, 0]]

/-- A `FloatOps` whose `powf` returns the constant 1.3 — close to the
true `1.875968^(5/12) ≈ 1.3005` that the C7 counterexample feeds it. -/
def approxPowOps : FloatOps := ⟨fun _ => 0, fun _ _ => 13/10⟩

/-- C1 (amended): on every input on which `extract` returns a swatch
list, the returned swatches are sorted by percentage in ASCENDING
order (`Swatch`'s `Ord` compares `percentage` ascending and plain
`Vec::sort` is used); no descending order and no cluster-id tie-break
exist. -/
theorem C1_swatches_sorted_ascending (bytes : List ℕ) (w h : ℕ) (ops : FloatOps)
    (perm : List ℕ) (out : List SwatchQ)
    (heq : extractModel bytes w h ops perm = some out) :
    List.Pairwise (fun s t => s.percentage ≤ t.percentage) out := by
  unfold extractModel at heq
  rcases Option.bind_eq_some.mp heq with ⟨pixels, hpix, heq2⟩
  rcases Option.bind_eq_some.mp heq2 with ⟨labels, hfit, heq3⟩
  unfold swatchesOf at heq3
  rcases Option.bind_eq_some.mp heq3 with ⟨sws, hsws, hout⟩
  cases hout
  have hs := @List.sorted_mergeSort SwatchQ
    (fun s t => decide (s.percentage ≤ t.percentage))
    (fun a b c hab hbc => by
      simp only [decide_eq_true_eq] at *
      exact le_trans hab hbc)
    (fun a b => by
      simp only [Bool.or_eq_true, decide_eq_true_eq]
      exact le_total _ _) sws
  exact hs.imp (fun h => of_decide_eq_true h)

/-- C1 witness: the 960×1 two-cluster image; the output percentages
are the ascending [25/51, 26/51]. -/
theorem C1_swatches_sorted_ascending_witness :
    extractModel bytes51 960 1 zeroOps [1, 0] = some sw51 ∧
    List.Pairwise (fun s t => s.percentage ≤ t.percentage) sw51 :=
  ⟨extract51_eq,
    C1_swatches_sorted_ascending bytes51 960 1 zeroOps [1, 0] sw51 extract51_eq⟩

/-- C1 counterexample: on the 960×1 two-cluster image the FIRST
returned swatch has the SMALLER percentage — the list is ascending,
refuting "strictly descending". -/
theorem C1_descending_counterexample :
    extractModel bytes51 960 1 zeroOps [1, 0] = some sw51 ∧
    sw51.map (fun s => s.percentage) = [25/51, 26/51] ∧
    (25 : ℚ)/51 < 26/51 :=
  ⟨extract51_eq, by with_unfolding_all decide, by with_unfolding_all decide⟩

/-- C2 (code bug): with `HashMap` iteration order [1, 0], the swatch at
enumeration position 0 takes its color (10, 10, 10) and position
(37, 0) from cluster 1 — the 26-pixel cluster — but its percentage from
`count_at(0)`, the enumeration position, giving 25/51 instead of
26/51. -/
theorem C2_percentage_enumeration_bug :
    swatchAt zeroOps pix51 labels51 960 1 [1, 0] 0 =
      some ⟨(10, 10, 10), (37, 0), (25 : ℚ)/51⟩ ∧
    countAt labels51 1 = 26 ∧ countAt labels51 0 = 25 ∧
    ((26 : ℚ)/51 ≠ (25 : ℚ)/51) ∧
    extractModel bytes51 960 1 zeroOps [1, 0] = some sw51 :=
  ⟨by with_unfolding_all decide, by with_unfolding_all decide,
    by with_unfolding_all decide, by with_unfolding_all decide, extract51_eq⟩

/-- C3 (amended): `extract` performs no dimension validation and has no
error channel at all: any byte buffer whose length is a multiple of
four is converted into `len/4` feature points, regardless of
`4·width·height`. -/
theorem C3_no_dimension_validation (ops : FloatOps) (w h : ℕ) (bytes : List ℕ)
    (hw : w ≠ 0) (hh : h ≠ 0) (h4 : 4 ∣ bytes.length) :
    ∃ pixels, buildPixels ops w h bytes 0 = some pixels ∧
      pixels.length = bytes.length / 4 :=
  buildPixels_length ops w h hw hh bytes 0 h4

/-- C3 witness: a single RGBA quadruple with `w = h = 5`
(`4 ≠ 4·5·5`) is happily turned into one feature point. -/
theorem C3_no_dimension_validation_witness :
    ((5 : ℕ) ≠ 0) ∧ (4 ∣ List.length [1, 2, 3, 4]) ∧
    ∃ pixels, buildPixels zeroOps 5 5 [1, 2, 3, 4] 0 = some pixels ∧
      pixels.length = List.length [1, 2, 3, 4] / 4 :=
  ⟨by decide, by decide,
    C3_no_dimension_validation zeroOps 5 5 [1, 2, 3, 4] (by decide) (by decide)
      (by decide)⟩

/-- C3 counterexample: the empty byte buffer with width = height = 5
(`bytes.len = 0 ≠ 100`) makes `extract` return an empty swatch list —
no `InvalidDimensions` (or any other) error is raised. -/
theorem C3_mismatched_dimensions_accepted :
    extractModel [] 5 5 zeroOps [] = some [] := by
  with_unfolding_all decide

/-- C4 (confirmed): for every dataset of `dim`-dimensional points
(`dim > 0`), `min_points ≥ 1`, `epsilon ≥ 0` and a radius test
accepting distance zero (both source instantiations do for
`epsilon ≥ 0`), DBSCAN fit succeeds, labels every point assigned or
outlier (no `Marked`, no `Undefined` — the unreachable collection
branch is never taken), the membership sets are pairwise disjoint and
disjoint from the outliers, and together with the outliers they cover
exactly the indices `0..N−1`. -/
theorem C4_dbscan_partition (dataset : List (List ℚ)) (minPoints : ℕ)
    (epsilon : ℚ) (rTest : ℚ → Bool) (dim : ℕ)
    (hmp : 1 ≤ minPoints) (hε : 0 ≤ epsilon) (hr0 : rTest 0 = true)
    (h0 : 0 < dim) (hdims : ∀ p ∈ dataset, p.length = dim) :
    ∃ labels, fitLabels dataset minPoints epsilon sqEuclid rTest = some labels ∧
      labels.length = dataset.length ∧
      (∀ i, i < dataset.length →
        labels.getD i .Undefined ≠ .Marked ∧ labels.getD i .Undefined ≠ .Undefined) ∧
      (∀ c c', c ≠ c' → ∀ i, i ∈ membershipAt labels c → i ∉ membershipAt labels c') ∧
      (∀ c i, i ∈ membershipAt labels c → i ∉ outliersOf labels) ∧
      (∀ i, ((∃ c, i ∈ membershipAt labels c) ∨ i ∈ outliersOf labels) ↔
        i < dataset.length) := by
  obtain ⟨labels, heq, hlen, hAO⟩ :=
    fitLabels_partition dataset minPoints epsilon rTest dim h0 hdims hε hr0
  refine ⟨labels, heq, hlen, ?_, ?_, ?_, ?_⟩
  · intro i hi
    rcases hAO i hi with h | h
    · rcases isAssigned_exists h with ⟨c, hc⟩
      rw [hc]
      exact ⟨fun hcon => Label.noConfusion hcon, fun hcon => Label.noConfusion hcon⟩
    · have : labels.getD i .Undefined = .Outlier := by
        cases hl : labels.getD i .Undefined <;> rw [hl] at h <;> first
          | rfl | exact Bool.noConfusion h
      rw [this]
      exact ⟨fun hcon => Label.noConfusion hcon, fun hcon => Label.noConfusion hcon⟩
  · intro c c' hcc i hi hi'
    have h1 := (mem_membershipAt_iff labels c i).mp hi
    have h2 := (mem_membershipAt_iff labels c' i).mp hi'
    rw [h1.2] at h2
    exact hcc (Label.Assigned.inj h2.2)
  · intro c i hi hi'
    have h1 := (mem_membershipAt_iff labels c i).mp hi
    have h2 := (mem_outliersOf_iff labels i).mp hi'
    rw [h1.2] at h2
    exact Label.noConfusion h2.2
  · intro i
    constructor
    · rintro (⟨c, hi⟩ | hi)
      · have := (mem_membershipAt_iff labels c i).mp hi
        omega
      · have := (mem_outliersOf_iff labels i).mp hi
        omega
    · intro hiN
      have hilt : i < labels.length := by omega
      rcases hAO i hiN with h | h
      · rcases isAssigned_exists h with ⟨c, hc⟩
        exact Or.inl ⟨c, (mem_membershipAt_iff labels c i).mpr ⟨hilt, hc⟩⟩
      · have hout : labels.getD i .Undefined = .Outlier := by
          cases hl : labels.getD i .Undefined <;> rw [hl] at h <;> first
            | rfl | exact Bool.noConfusion h
        exact Or.inr ((mem_outliersOf_iff labels i).mpr ⟨hilt, hout⟩)

/-- C4 witness: the one-point dataset `[[0, 0]]` with `min_points = 1`,
`epsilon = 0`. -/
theorem C4_dbscan_partition_witness :
    ∃ labels, fitLabels [[(0 : ℚ), 0]] 1 0 sqEuclid (fun d => d ≤ 0) = some labels ∧
      labels.length = List.length [[(0 : ℚ), 0]] ∧
      (∀ i, i < List.length [[(0 : ℚ), 0]] →
        labels.getD i .Undefined ≠ .Marked ∧ labels.getD i .Undefined ≠ .Undefined) ∧
      (∀ c c', c ≠ c' → ∀ i, i ∈ membershipAt labels c → i ∉ membershipAt labels c') ∧
      (∀ c i, i ∈ membershipAt labels c → i ∉ outliersOf labels) ∧
      (∀ i, ((∃ c, i ∈ membershipAt labels c) ∨ i ∈ outliersOf labels) ↔
        i < List.length [[(0 : ℚ), 0]]) :=
  C4_dbscan_partition [[0, 0]] 1 0 (fun d => d ≤ 0) 2 (by decide)
    (by with_unfolding_all decide) (by with_unfolding_all decide) (by decide)
    (by with_unfolding_all decide)

/-- C5 (code bug): on `ds5` with `k = 2` and query (0, 0) the k-d tree
search prunes against `heap.peek()` — the SMALLEST collected distance —
and returns index 6 (squared distance 409) while the linear scan
returns the strictly nearer index 4 (squared distance 116). -/
theorem C5_topk_heap_peek_bug :
    kdSearch ds5 sqEuclid [0, 0] 2 =
      [⟨3, 1⟩, ⟨6, 409⟩] ∧
    linearSearch ds5 sqEuclid [0, 0] 2 =
      [⟨3, 1⟩, ⟨4, 116⟩] ∧
    sqEuclid (ds5.getD 4 []) [0, 0] = 116 ∧
    sqEuclid (ds5.getD 6 []) [0, 0] = 409 ∧
    (116 : ℚ) < 409 := by
  refine ⟨?_, ?_, ?_, ?_, ?_⟩ <;> with_unfolding_all decide

/-- C6 (amended): the radius search is exact — it returns precisely
`{i : dist(dataset[i], q) ≤ r}`, once each — for the euclidean measure
at every radius `r ≥ 0` (the prune `|δ| ≤ r` compares like units), but
for the squared-euclidean measure only under the extra premise `r ≥ 1`:
there the prune compares an axis DISTANCE against a SQUARED radius,
which is only sound when `r ≥ 1` (see the counterexample at radius
7/10).  Distances are embedded squared; the euclidean test
`dist ≤ r` is `d ≤ r²` on the squared value `d`. -/
theorem C6_radius_search_exact (dataset : List (List ℚ)) (r : ℚ) (q : List ℚ)
    (dim : ℕ) (h0 : 0 < dim) (hdims : ∀ p ∈ dataset, p.length = dim)
    (hq : q.length = dim) (hr : 0 ≤ r) :
    ((∀ i : ℕ, i ∈ (kdSearchRadius dataset sqEuclid (fun d => d ≤ r * r) r q).map
        NeighborQ.index ↔
        (i < dataset.length ∧ sqEuclid (dataset.getD i []) q ≤ r * r)) ∧
      ((kdSearchRadius dataset sqEuclid (fun d => d ≤ r * r) r q).map
        NeighborQ.index).Nodup) ∧
    (1 ≤ r →
      (∀ i : ℕ, i ∈ (kdSearchRadius dataset sqEuclid (fun d => d ≤ r) r q).map
          NeighborQ.index ↔
          (i < dataset.length ∧ sqEuclid (dataset.getD i []) q ≤ r)) ∧
      ((kdSearchRadius dataset sqEuclid (fun d => d ≤ r) r q).map
        NeighborQ.index).Nodup) := by
  constructor
  · have hsafe : ∀ t v : ℚ, r < t → t * t ≤ v →
        (decide (v ≤ r * r)) = false := by
      intro t v ht hv
      apply decide_eq_false
      intro hc
      nlinarith
    obtain ⟨hiff, hnd, _⟩ := kdSearchRadius_exact dataset
      (fun d => decide (d ≤ r * r)) r q dim h0 hdims hq hr hsafe
    refine ⟨?_, hnd⟩
    intro i
    rw [hiff i]
    constructor
    · rintro ⟨h1, h2⟩
      exact ⟨h1, of_decide_eq_true h2⟩
    · rintro ⟨h1, h2⟩
      exact ⟨h1, decide_eq_true h2⟩
  · intro hr1
    have hsafe : ∀ t v : ℚ, r < t → t * t ≤ v →
        (decide (v ≤ r)) = false := by
      intro t v ht hv
      apply decide_eq_false
      intro hc
      nlinarith
    obtain ⟨hiff, hnd, _⟩ := kdSearchRadius_exact dataset
      (fun d => decide (d ≤ r)) r q dim h0 hdims hq hr hsafe
    refine ⟨?_, hnd⟩
    intro i
    rw [hiff i]
    constructor
    · rintro ⟨h1, h2⟩
      exact ⟨h1, of_decide_eq_true h2⟩
    · rintro ⟨h1, h2⟩
      exact ⟨h1, decide_eq_true h2⟩

/-- C6 witness: the dataset `[[0,0],[3,4]]` with radius 1 and query
(0, 0). -/
theorem C6_radius_search_exact_witness :
    ((∀ i : ℕ, i ∈ (kdSearchRadius [[(0 : ℚ), 0], [3, 4]] sqEuclid
        (fun d => d ≤ 1 * 1) 1 [0, 0]).map NeighborQ.index ↔
        (i < List.length [[(0 : ℚ), 0], [3, 4]] ∧
          sqEuclid ([[(0 : ℚ), 0], [3, 4]].getD i []) [0, 0] ≤ 1 * 1)) ∧
      ((kdSearchRadius [[(0 : ℚ), 0], [3, 4]] sqEuclid
        (fun d => d ≤ 1 * 1) 1 [0, 0]).map NeighborQ.index).Nodup) ∧
    ((1 : ℚ) ≤ 1 →
      (∀ i : ℕ, i ∈ (kdSearchRadius [[(0 : ℚ), 0], [3, 4]] sqEuclid
          (fun d => d ≤ 1) 1 [0, 0]).map NeighborQ.index ↔
          (i < List.length [[(0 : ℚ), 0], [3, 4]] ∧
            sqEuclid ([[(0 : ℚ), 0], [3, 4]].getD i []) [0, 0] ≤ 1)) ∧
      ((kdSearchRadius [[(0 : ℚ), 0], [3, 4]] sqEuclid
        (fun d => d ≤ 1) 1 [0, 0]).map NeighborQ.index).Nodup) :=
  C6_radius_search_exact [[0, 0], [3, 4]] 1 [0, 0] 2 (by decide)
    (by with_unfolding_all decide) (by decide) (by with_unfolding_all decide)

/-- C6 counterexample: squared-euclidean measure, radius 7/10 < 1,
query (0, 0) on `ds6`: index 2 has squared distance 16/25 ≤ 7/10 but
the search misses it — the axis prune `|δ| ≤ 7/10` against
`δ = 3/4 > 7/10` discards the right subtree. -/
theorem C6_small_radius_missed :
    (kdSearchRadius ds6 sqEuclid (fun d => d ≤ 7/10) (7/10) [0, 0]).map
      NeighborQ.index = [0] ∧
    sqEuclid (ds6.getD 2 []) [0, 0] = 16/25 ∧
    ((16 : ℚ)/25 ≤ 7/10) ∧ 2 < ds6.length := by
  refine ⟨?_, ?_, ?_, ?_⟩ <;> with_unfolding_all decide

/-- C7 (amended): `impl From<&XYZ> for Rgba` rounds each channel and
casts with `to_u8().expect(..)`: there is NO clamp into [0, 255] — the
conversion is the stated if-then-else and fails (the source panics) as
soon as one rounded channel leaves `[0, 255]`, even for XYZ values
inside the clamped D65 box. -/
theorem C7_xyz_to_rgba_unclamped (ops : FloatOps) (c : XYZc) :
    Rgbac.fromXYZ ops c =
      if (0 ≤ rustRound (rgbaGamma ops (rgbaLinR c) * 255) ∧
            rustRound (rgbaGamma ops (rgbaLinR c) * 255) ≤ 255) ∧
         (0 ≤ rustRound (rgbaGamma ops (rgbaLinG c) * 255) ∧
            rustRound (rgbaGamma ops (rgbaLinG c) * 255) ≤ 255) ∧
         (0 ≤ rustRound (rgbaGamma ops (rgbaLinB c) * 255) ∧
            rustRound (rgbaGamma ops (rgbaLinB c) * 255) ≤ 255) then
        some ⟨(rustRound (rgbaGamma ops (rgbaLinR c) * 255)).toNat,
              (rustRound (rgbaGamma ops (rgbaLinG c) * 255)).toNat,
              (rustRound (rgbaGamma ops (rgbaLinB c) * 255)).toNat, 255⟩
      else none :=
  fromXYZ_eq_toU8 ops c

/-- C7 counterexample: the XYZ color (0, 1, 0) lies inside the clamp
box (`XYZ::new` is the identity on it), yet with a `powf` close to the
true value (`1.875968^(5/12) ≈ 1.3005`, here the constant 1.3) the
green channel rounds to 336 > 255 and the conversion fails instead of
clamping. -/
theorem C7_in_box_conversion_fails :
    XYZc.new 0 1 0 = ⟨0, 1, 0⟩ ∧
    rustRound (rgbaGamma approxPowOps (rgbaLinG ⟨0, 1, 0⟩) * 255) = 336 ∧
    Rgbac.fromXYZ approxPowOps ⟨0, 1, 0⟩ = none := by
  refine ⟨?_, ?_, ?_⟩ <;> with_unfolding_all decide

/-- C9 (amended): the white point used by both transforms is
`(0.95046, 1.0, 1.08906)` (`src/color/white_point.rs`); the values
`0.950456` and `1.088644` appear in the code only as the `XYZ` clamp
bounds (`src/color/xyz.rs`), not as the white point. -/
theorem C9_white_point_constants :
    (D65x = 95046/100000 ∧ D65y = 1 ∧ D65z = 108906/100000) ∧
    (xyzMaxX = 950456/1000000 ∧ xyzMaxY = 1 ∧ xyzMaxZ = 1088644/1000000) :=
  ⟨⟨rfl, rfl, rfl⟩, ⟨rfl, rfl, rfl⟩⟩

/-- Projection-based disequality on `ℚ` (`qBeq` sees the normalized
numerator and denominator, so a failed comparison refutes equality). -/
theorem qBeq_neq {a b : ℚ} (h : qBeq a b = false) : a ≠ b := by
  intro hc
  subst hc
  unfold qBeq at h
  simp at h

/-- C9 counterexample: `D65z` differs from the claimed 1.088644 by
0.000416 and `D65x` from 0.950456 by 0.000004 — both outside
six-significant-digit agreement (half-ulp 5·10⁻⁷ at these
magnitudes). -/
theorem C9_claimed_constants_refuted :
    D65z ≠ 1088644/1000000 ∧ qAbs (D65z - 1088644/1000000) = 416/1000000 ∧
    D65x ≠ 950456/1000000 ∧ qAbs (D65x - 950456/1000000) = 4/1000000 :=
  ⟨qBeq_neq (by with_unfolding_all decide),
    qBeq_eq (by with_unfolding_all decide),
    qBeq_neq (by with_unfolding_all decide),
    qBeq_eq (by with_unfolding_all decide)⟩

/-- C10 (confirmed): on a valid RGBA input every returned swatch has
its position inside the image: each centroid position coordinate is a
mean of in-range pixel coordinates `< 1`, and `to_u32` truncates. -/
theorem C10_swatch_positions_in_range (bytes : List ℕ) (w h : ℕ)
    (ops : FloatOps) (perm : List ℕ) (out : List SwatchQ)
    (hw : w ≠ 0) (hh : h ≠ 0) (hlen : bytes.length = 4 * w * h)
    (heq : extractModel bytes w h ops perm = some out) :
    ∀ s ∈ out, s.position.1 < w ∧ s.position.2 < h :=
  extractModel_position bytes w h ops perm out hw hh heq

/-- C10 witness: the 1×1 black image (its single point is an outlier
for `min_points = 25`, so the swatch list is empty). -/
theorem C10_swatch_positions_in_range_witness :
    ((1 : ℕ) ≠ 0) ∧ (List.length [0, 0, 0, 255] = 4 * 1 * 1) ∧
    extractModel [0, 0, 0, 255] 1 1 zeroOps [] = some [] ∧
    (∀ s ∈ ([] : List SwatchQ), s.position.1 < 1 ∧ s.position.2 < 1) :=
  ⟨by decide, by decide, by with_unfolding_all decide,
    C10_swatch_positions_in_range [0, 0, 0, 255] 1 1 zeroOps [] [] (by decide)
      (by decide) (by decide) (by with_unfolding_all decide)⟩
